import Mathlib

/-!
AnalogFightstick profile decoder.

A shallow embedding of `controller/main/decoder.cpp` (the EEPROM profile
decoder: `DecodeHeader`, `FetchData`, `DecodeBody`, `Decoder::Decode`) and the
properties its specification states about it.

Conventions of the embedding.

* The EEPROM is a function from addresses to numbers; `EEPROMread` truncates
  to a byte, so every function is a well-formed store.
* C++ `int` values that are never negative in the program (addresses, bit
  counts, identifiers) are natural numbers. No intermediate value exceeds
  `255 * 2 ^ 15`, so 32-bit overflow never occurs and is not modelled.
* The enum constants come from the generated protobuf header, which is not
  part of the sources at hand. They are collected in `ProfileEnums` and every
  definition takes them as a parameter.
* `kMasks` has eight entries. A read past its end is undefined in C++; the
  embedding takes the value such a read yields from a parameter `oob` about
  which nothing is assumed.
* Loops carry a fuel argument; each entry point supplies an amount of fuel
  that is proved to be enough, and `none` is returned only when fuel runs out.
-/

namespace AnalogFightstick

/-! ## Data model -/

/-- Values of the generated enums that the decoder refers to:
`_hs_profile_Profile_Platform_MIN`, `_hs_profile_Profile_Platform_MAX` and
`hs_profile_Profile_Layout_AnalogAction_ID_R_STICK_Y`. -/
structure ProfileEnums where
  Platform_MIN : Nat
  Platform_MAX : Nat
  R_STICK_Y : Nat
  deriving DecidableEq, Repr

/-- Contents of the EEPROM, by address. -/
abbrev Store := Nat → Nat

/-- The read primitive `EEPROM.read(addr)`: one byte. -/
def EEPROMread (s : Store) (addr : Nat) : Nat := s addr % 256

/-- The struct `hs_profile_Profile_PlatformConfig`. -/
structure PlatformConfig where
  platform : Nat
  position : Nat
  deriving DecidableEq, Repr

/-- The tagged union `hs_profile_Profile_Layout_Action`. -/
inductive Action where
  | digital (id : Nat)
  | analog (id : Nat) (value : Nat)
  deriving DecidableEq, Repr

/-- The struct `hs_profile_Profile_Layout`: twenty named action slots. -/
structure Layout where
  thumb_top : Action
  thumb_middle : Action
  thumb_bottom : Action
  index_top : Action
  index_middle : Action
  middle_top : Action
  middle_middle : Action
  middle_bottom : Action
  ring_top : Action
  ring_middle : Action
  ring_bottom : Action
  pinky_top : Action
  pinky_middle : Action
  pinky_bottom : Action
  left_index_extra : Action
  left_middle_extra : Action
  left_ring_extra : Action
  right_index_extra : Action
  right_middle_extra : Action
  right_ring_extra : Action
  deriving DecidableEq, Repr

/-- The slots of a layout in the order of the `actions` pointer array of
`DecodeBody`. -/
def Layout.toList (l : Layout) : List Action :=
  [l.thumb_top, l.thumb_middle, l.thumb_bottom, l.index_top, l.index_middle,
   l.middle_top, l.middle_middle, l.middle_bottom, l.ring_top, l.ring_middle,
   l.ring_bottom, l.pinky_top, l.pinky_middle, l.pinky_bottom,
   l.left_index_extra, l.left_middle_extra, l.left_ring_extra,
   l.right_index_extra, l.right_middle_extra, l.right_ring_extra]

/-- Writing twenty decoded actions through the `actions` pointer array of
`DecodeBody`, in array order. -/
def Layout.ofList : List Action → Option Layout
  | [a0, a1, a2, a3, a4, a5, a6, a7, a8, a9,
     a10, a11, a12, a13, a14, a15, a16, a17, a18, a19] =>
    some
      { thumb_top := a0, thumb_middle := a1, thumb_bottom := a2,
        index_top := a3, index_middle := a4,
        middle_top := a5, middle_middle := a6, middle_bottom := a7,
        ring_top := a8, ring_middle := a9, ring_bottom := a10,
        pinky_top := a11, pinky_middle := a12, pinky_bottom := a13,
        left_index_extra := a14, left_middle_extra := a15,
        left_ring_extra := a16, right_index_extra := a17,
        right_middle_extra := a18, right_ring_extra := a19 }
  | _ => none

/-- What a call of `Decoder::Decode` ends in: it returns a layout, or the
process is ended by `exit(code)`. -/
inductive Outcome where
  | returned (layout : Layout)
  | exited (code : Nat)
  deriving DecidableEq, Repr

/-! ## Constants -/

def kMinAddr : Nat := 16

def kMasks : List Nat := [0b1, 0b11, 0b111, 0b1111, 0b11111, 0b111111, 0b1111111, 0b11111111]

def kLenActionID : Nat := 5

def kLenAnalogActionValue : Nat := 10

def kMinAnalogActionID (E : ProfileEnums) : Nat := E.R_STICK_Y

/-- The expression `kMasks[i]`. For `i < 8` it is the table entry; past the
end of the table the value read is whatever `oob i` is. -/
def kMasksAt (oob : Nat → Nat) (i : Nat) : Nat :=
  match kMasks.get? i with
  | some m => m
  | none => oob i

/-! ## DecodeHeader -/

/-- Local state of `DecodeHeader`: the running `addr`, the vector `configs`,
and (for reasoning only) the addresses passed to `EEPROM.read` so far. -/
structure HeaderState where
  addr : Nat
  configs : List PlatformConfig
  reads : List Nat
  deriving DecidableEq, Repr

/-- The values the loop variable `platform` takes:
`_MIN, _MIN + 1, ..., _MAX`. -/
def platformRange (E : ProfileEnums) : List Nat :=
  (List.range (E.Platform_MAX + 1 - E.Platform_MIN)).map (fun i => E.Platform_MIN + i)

/-- The test `platform_bitmap & (1 << (8 - platform))`. The C++ shift is
defined for `platform ≤ 8` only; statements about it assume the enum range
lies within `0..8`. -/
def platformBit (platform_bitmap platform : Nat) : Bool :=
  platform_bitmap &&& (1 <<< (8 - platform)) != 0

/-- One iteration of the `for` loop of `DecodeHeader`. -/
def headerStep (s : Store) (platform_bitmap : Nat) (st : HeaderState) (platform : Nat) :
    HeaderState :=
  if platformBit platform_bitmap platform then
    if st.configs.length % 2 = 0 then
      { addr := st.addr
        configs := st.configs ++ [⟨platform, EEPROMread s st.addr >>> 4⟩]
        reads := st.reads ++ [st.addr] }
    else
      { addr := st.addr + 1
        configs := st.configs ++ [⟨platform, EEPROMread s st.addr &&& 0xFF⟩]
        reads := st.reads ++ [st.addr] }
  else st

/-- The whole run of `DecodeHeader(addr)`, with its final local state. -/
def DecodeHeaderRun (E : ProfileEnums) (s : Store) (addr : Nat) : HeaderState :=
  (platformRange E).foldl (headerStep s (EEPROMread s addr))
    { addr := addr + 1, configs := [], reads := [addr] }

/-- The function `DecodeHeader(addr)`. -/
def DecodeHeader (E : ProfileEnums) (s : Store) (addr : Nat) : List PlatformConfig :=
  (DecodeHeaderRun E s addr).configs

/-- The addresses `DecodeHeader(addr)` passes to `EEPROM.read`, in order. -/
def DecodeHeaderReads (E : ProfileEnums) (s : Store) (addr : Nat) : List Nat :=
  (DecodeHeaderRun E s addr).reads

/-! ## FetchData -/

/-- The reference parameters `addr`, `curr_byte`, `unread` of `FetchData`. -/
structure Cursor where
  addr : Nat
  curr_byte : Nat
  unread : Nat
  deriving DecidableEq, Repr

/-- The `while (remaining > 0)` loop of `FetchData`; `none` when the fuel is
used up before the loop ends. -/
def FetchDataLoop (oob : Nat → Nat) (s : Store) :
    Nat → Nat → Nat → Cursor → Option (Nat × Cursor)
  | 0, remaining, data, c => if remaining > 0 then none else some (data, c)
  | fuel + 1, remaining, data, c =>
    if remaining > 0 then
      let data1 :=
        if remaining ≤ c.unread then
          data ||| ((c.curr_byte >>> (c.unread - remaining)) &&& kMasksAt oob (remaining - 1))
        else
          data ||| ((c.curr_byte <<< (remaining - c.unread)) &&& kMasksAt oob (remaining - 1))
      let fetched := if c.unread < remaining then c.unread else remaining
      let remaining1 := remaining - fetched
      let unread1 := c.unread - fetched
      if unread1 = 0 then
        FetchDataLoop oob s fuel remaining1 data1
          { addr := c.addr + 1, curr_byte := EEPROMread s c.addr, unread := 8 }
      else
        FetchDataLoop oob s fuel remaining1 data1
          { addr := c.addr, curr_byte := c.curr_byte, unread := unread1 }
    else some (data, c)

/-- The function `FetchData(remaining, addr, curr_byte, unread)`: the value
returned and the cursor left behind. The loop runs at most `remaining + 1`
times. -/
def FetchData (oob : Nat → Nat) (s : Store) (remaining : Nat) (c : Cursor) :
    Option (Nat × Cursor) :=
  FetchDataLoop oob s (remaining + 1) remaining 0 c

/-! ## DecodeBody -/

/-- The body of the `for (Action* action : actions)` loop of `DecodeBody`:
the action stored through `action` and the cursor afterwards. -/
def decodeAction (E : ProfileEnums) (oob : Nat → Nat) (s : Store) (c : Cursor) :
    Option (Action × Cursor) :=
  match FetchData oob s kLenActionID c with
  | none => none
  | some (button_id, c1) =>
    if button_id ≥ kMinAnalogActionID E then
      match FetchData oob s kLenAnalogActionValue c1 with
      | none => none
      | some (button_value, c2) => some (Action.analog button_id button_value, c2)
    else some (Action.digital button_id, c1)

/-- The first `n` iterations of the loop of `DecodeBody`. -/
def decodeActions (E : ProfileEnums) (oob : Nat → Nat) (s : Store) :
    Nat → Cursor → Option (List Action × Cursor)
  | 0, c => some ([], c)
  | n + 1, c =>
    match decodeAction E oob s c with
    | none => none
    | some (a, c1) =>
      match decodeActions E oob s n c1 with
      | none => none
      | some (rest, c2) => some (a :: rest, c2)

/-- The cursor `DecodeBody(addr)` starts from:
`curr_byte = EEPROM.read(addr++)`, `unread = 8`. -/
def bodyCursor (s : Store) (addr : Nat) : Cursor :=
  { addr := addr + 1, curr_byte := EEPROMread s addr, unread := 8 }

/-- The function `DecodeBody(addr)`. -/
def DecodeBody (E : ProfileEnums) (oob : Nat → Nat) (s : Store) (addr : Nat) : Option Layout :=
  match decodeActions E oob s 20 (bodyCursor s addr) with
  | none => none
  | some (acts, _) => Layout.ofList acts

/-! ## Decoder::Decode -/

/-- The lambda of `Decode`: does some config have the requested platform and
position? -/
def matchesRequest (configs : List PlatformConfig) (platform position : Nat) : Bool :=
  configs.any (fun config => config.platform == platform && config.position == position)

/-- The expression `configs.size() / 2 + configs.size() % 2 + 1`. -/
def headerLen (configs : List PlatformConfig) : Nat :=
  configs.length / 2 + configs.length % 2 + 1

/-- The `while (curr_addr < max_addr)` loop of `Decode`. The result is the
final `curr_addr` together with the addresses handed to `DecodeHeader`, in
order; `none` when the fuel is used up before the loop ends. -/
def scanLoop (E : ProfileEnums) (s : Store) (platform position max_addr : Nat) :
    Nat → Nat → List Nat → Option (Nat × List Nat)
  | 0, curr_addr, seen => if curr_addr < max_addr then none else some (curr_addr, seen)
  | fuel + 1, curr_addr, seen =>
    if curr_addr < max_addr then
      let configs := DecodeHeader E s curr_addr
      let curr_addr1 := curr_addr + headerLen configs
      if matchesRequest configs platform position then
        some (curr_addr1, seen ++ [curr_addr])
      else
        scanLoop E s platform position max_addr fuel (curr_addr1 + 13) (seen ++ [curr_addr])
    else some (curr_addr, seen)

/-- The local `encoded_len` of `Decode`. -/
def encodedLen (s : Store) : Nat :=
  (EEPROMread s kMinAddr <<< 8) ||| EEPROMread s (kMinAddr + 1)

/-- The local `max_addr` of `Decode`. -/
def maxAddr (s : Store) : Nat := kMinAddr + encodedLen s + 1

/-- The scan of `Decode` from `kMinAddr + 2`, with `max_addr` units of
fuel. -/
def scan (E : ProfileEnums) (s : Store) (platform position : Nat) : Option (Nat × List Nat) :=
  scanLoop E s platform position (maxAddr s) (maxAddr s) (kMinAddr + 2) []

/-- The method `Decoder::Decode(platform, position)`. -/
def Decode (E : ProfileEnums) (oob : Nat → Nat) (s : Store) (platform position : Nat) :
    Option Outcome :=
  match scan E s platform position with
  | none => none
  | some (curr_addr, _) =>
    if curr_addr ≥ maxAddr s then some (Outcome.exited 1)
    else
      match DecodeBody E oob s curr_addr with
      | none => none
      | some layout => some (Outcome.returned layout)

/-! ## The bit stream, as the specification describes it -/

/-- Bit `k` of the logical bit stream: bytes in address order, the most
significant bit of each byte first. -/
def streamBit (s : Store) (k : Nat) : Nat :=
  (EEPROMread s (k / 8) >>> (7 - k % 8)) % 2

/-- The unsigned integer whose binary digits are the `n` stream bits from bit
`pos` on, the first of them most significant. -/
def streamValue (s : Store) (pos : Nat) : Nat → Nat
  | 0 => 0
  | n + 1 => 2 * streamValue s pos n + streamBit s (pos + n)

/-- Stream position of the next unread bit of a cursor. -/
def Cursor.pos (c : Cursor) : Nat := 8 * c.addr - c.unread

/-- A cursor as `DecodeBody` and `FetchData` leave it: between one and eight
unread bits in `curr_byte`, which is the byte before `addr`. -/
def CursorOK (s : Store) (c : Cursor) : Prop :=
  1 ≤ c.unread ∧ c.unread ≤ 8 ∧ 1 ≤ c.addr ∧ c.curr_byte = EEPROMread s (c.addr - 1)

/-- The cursor whose next unread bit is stream bit `p`. -/
def cursorAt (s : Store) (p : Nat) : Cursor :=
  { addr := p / 8 + 1, curr_byte := EEPROMread s (p / 8), unread := 8 - p % 8 }

/-! ## The header: closed form of `DecodeHeader`, and section 6 -/

/-- Platforms a bitmap byte lists: the values of the closed enum range,
ascending, whose bit at position `8 - p` is set. -/
def presentPlatforms (E : ProfileEnums) (bitmap : Nat) : List Nat :=
  (platformRange E).filter (fun p => bitmap.testBit (8 - p))

/-- The position `DecodeHeader` gives the config of index `k`, when the
position bytes start at address `a1`. -/
def decodedPosition (s : Store) (a1 k : Nat) : Nat :=
  if k % 2 = 0 then EEPROMread s (a1 + k / 2) >>> 4 else EEPROMread s (a1 + k / 2) &&& 0xFF

/-- Configs for the platforms `ps`, the first of them having index `k`. -/
def configsFrom (s : Store) (a1 : Nat) : Nat → List Nat → List PlatformConfig
  | _, [] => []
  | k, p :: ps => ⟨p, decodedPosition s a1 k⟩ :: configsFrom s a1 (k + 1) ps

/-- Addresses read for `m` configs, the first of them having index `k`. -/
def readsFrom (a1 k m : Nat) : List Nat :=
  (List.range m).map (fun j => a1 + (k + j) / 2)

/-- A header as section 6 lays it out: the bitmap byte and the position
bytes. -/
structure Header where
  bitmap : Nat
  positions : List Nat
  deriving DecidableEq, Repr

/-- Nibble `k` of the position bytes: even `k` is the high nibble of byte
`k / 2`, odd `k` the low nibble. -/
def nibble (positions : List Nat) (k : Nat) : Nat :=
  if k % 2 = 0 then positions.getD (k / 2) 0 / 16 else positions.getD (k / 2) 0 % 16

/-- Entries for the platforms `ps` by the nibble rule, the first of them
having index `k`. -/
def entriesFrom (positions : List Nat) : Nat → List Nat → List PlatformConfig
  | _, [] => []
  | k, p :: ps => ⟨p, nibble positions k⟩ :: entriesFrom positions (k + 1) ps

/-- The (platform, position) pairs a header serves, by section 6. -/
def Header.entries (E : ProfileEnums) (h : Header) : List PlatformConfig :=
  entriesFrom h.positions 0 (presentPlatforms E h.bitmap)

/-- Byte length of a header: the bitmap byte and its position bytes. -/
def Header.len (h : Header) : Nat := 1 + h.positions.length

/-- A well-formed header: a bitmap byte followed by one position byte for
every two listed platforms, rounded up. -/
def Header.WF (E : ProfileEnums) (h : Header) : Prop :=
  h.bitmap < 256 ∧ h.positions.length = ((presentPlatforms E h.bitmap).length + 1) / 2 ∧
    ∀ b ∈ h.positions, b < 256

/-- The store holds header `h` at address `a`. -/
def HeaderAt (s : Store) (a : Nat) (h : Header) : Prop :=
  EEPROMread s a = h.bitmap ∧
    ∀ j, j < h.positions.length → EEPROMread s (a + 1 + j) = h.positions.getD j 0

/-- From address `a` on the store holds records with the headers `hs`, each
header followed by exactly 13 body bytes. -/
def RecordsAt (s : Store) : Nat → List Header → Prop
  | _, [] => True
  | a, h :: hs => HeaderAt s a h ∧ RecordsAt s (a + h.len + 13) hs

instance Header.decidableWF (E : ProfileEnums) (h : Header) : Decidable (Header.WF E h) :=
  inferInstanceAs (Decidable (h.bitmap < 256 ∧
    h.positions.length = ((presentPlatforms E h.bitmap).length + 1) / 2 ∧
    ∀ b ∈ h.positions, b < 256))

instance HeaderAt.decidable (s : Store) (a : Nat) (h : Header) : Decidable (HeaderAt s a h) :=
  inferInstanceAs (Decidable (EEPROMread s a = h.bitmap ∧
    ∀ j, j < h.positions.length → EEPROMread s (a + 1 + j) = h.positions.getD j 0))

instance RecordsAt.decidable (s : Store) : ∀ (a : Nat) (hs : List Header),
    Decidable (RecordsAt s a hs)
  | _, [] => isTrue trivial
  | a, h :: hs =>
    have := RecordsAt.decidable s (a + h.len + 13) hs
    inferInstanceAs (Decidable (HeaderAt s a h ∧ RecordsAt s (a + h.len + 13) hs))

/-- Total byte length of records with the headers `hs`. -/
def recordsLen : List Header → Nat
  | [] => 0
  | h :: hs => h.len + 13 + recordsLen hs

/-- Addresses at which the records with headers `hs` start, the first at
`a`. -/
def recordStarts : Nat → List Header → List Nat
  | _, [] => []
  | a, h :: hs => a :: recordStarts (a + h.len + 13) hs

/-! ## The body, as the specification describes it -/

/-- Width in bits of the action field that starts at stream bit `p`: five
bits, and ten more when the five-bit value is an analog id. -/
def fieldWidth (E : ProfileEnums) (s : Store) (p : Nat) : Nat :=
  if streamValue s p 5 ≥ kMinAnalogActionID E then 15 else 5

/-- Stream bit at which the field of slot `i` starts, when slot 0 starts at
bit `p`. -/
def slotStart (E : ProfileEnums) (s : Store) : Nat → Nat → Nat
  | p, 0 => p
  | p, i + 1 => slotStart E s (p + fieldWidth E s p) i

/-- Slot decoding rule of section 4.4 for the field at stream bit `p`: the
action is Analog with the five-bit id when that id is at least the threshold,
and Digital with that id otherwise. -/
def SlotDecoded (E : ProfileEnums) (s : Store) (p : Nat) (a : Action) : Prop :=
  (streamValue s p 5 ≥ kMinAnalogActionID E → ∃ v, a = Action.analog (streamValue s p 5) v) ∧
    (streamValue s p 5 < kMinAnalogActionID E → a = Action.digital (streamValue s p 5))

/-! ## The scan, as the specification describes it -/

/-- Address of header number `i` on the path of the scan that starts at `a`:
each step is the header length at the current address plus 13. -/
def chainFrom (E : ProfileEnums) (s : Store) : Nat → Nat → Nat
  | a, 0 => a
  | a, i + 1 => chainFrom E s (a + headerLen (DecodeHeader E s a) + 13) i

/-! ## Mask indices of `FetchData` -/

/-- The indices `remaining - 1` at which the loop of `FetchData` reads
`kMasks`, pass by pass: the control flow of `FetchDataLoop` without the
data. -/
def maskIndexLoop : Nat → Nat → Nat → List Nat
  | 0, _, _ => []
  | fuel + 1, remaining, unread =>
    if remaining > 0 then
      let fetched := if unread < remaining then unread else remaining
      let remaining1 := remaining - fetched
      let unread1 := unread - fetched
      if unread1 = 0 then (remaining - 1) :: maskIndexLoop fuel remaining1 8
      else (remaining - 1) :: maskIndexLoop fuel remaining1 unread1
    else []

/-- The indices at which `FetchData(remaining, ...)` reads `kMasks` when
called with `unread` unread bits. -/
def maskIndices (remaining unread : Nat) : List Nat :=
  maskIndexLoop (remaining + 1) remaining unread

/-! ## The all-digital body, as the specification describes it -/

/-- The layout whose slot `i`, in the fixed slot order, is Digital with the
id given by stream bits `5 i` to `5 i + 4` of the body at `addr`. -/
def digitalLayoutAt (s : Store) (addr : Nat) : Layout :=
  { thumb_top := Action.digital (streamValue s (8 * addr + 5 * 0) 5)
    thumb_middle := Action.digital (streamValue s (8 * addr + 5 * 1) 5)
    thumb_bottom := Action.digital (streamValue s (8 * addr + 5 * 2) 5)
    index_top := Action.digital (streamValue s (8 * addr + 5 * 3) 5)
    index_middle := Action.digital (streamValue s (8 * addr + 5 * 4) 5)
    middle_top := Action.digital (streamValue s (8 * addr + 5 * 5) 5)
    middle_middle := Action.digital (streamValue s (8 * addr + 5 * 6) 5)
    middle_bottom := Action.digital (streamValue s (8 * addr + 5 * 7) 5)
    ring_top := Action.digital (streamValue s (8 * addr + 5 * 8) 5)
    ring_middle := Action.digital (streamValue s (8 * addr + 5 * 9) 5)
    ring_bottom := Action.digital (streamValue s (8 * addr + 5 * 10) 5)
    pinky_top := Action.digital (streamValue s (8 * addr + 5 * 11) 5)
    pinky_middle := Action.digital (streamValue s (8 * addr + 5 * 12) 5)
    pinky_bottom := Action.digital (streamValue s (8 * addr + 5 * 13) 5)
    left_index_extra := Action.digital (streamValue s (8 * addr + 5 * 14) 5)
    left_middle_extra := Action.digital (streamValue s (8 * addr + 5 * 15) 5)
    left_ring_extra := Action.digital (streamValue s (8 * addr + 5 * 16) 5)
    right_index_extra := Action.digital (streamValue s (8 * addr + 5 * 17) 5)
    right_middle_extra := Action.digital (streamValue s (8 * addr + 5 * 18) 5)
    right_ring_extra := Action.digital (streamValue s (8 * addr + 5 * 19) 5) }

/-! ## The encoder of section 6

The program that writes the store is not part of the sources; the definitions
of this section follow the wording of section 6 of the specification. -/

/-- Modelled from the spec: the encoder is missing from the sources. The `w`
binary digits of `n`, most significant first. -/
def bitsOf (w n : Nat) : List Bool :=
  (List.range w).map (fun i => n.testBit (w - 1 - i))

/-- Modelled from the spec: the encoder is missing from the sources. One
action is a 5-bit id, followed by a 10-bit value when it is analog. -/
def actionBits : Action → List Bool
  | Action.digital id => bitsOf 5 id
  | Action.analog id value => bitsOf 5 id ++ bitsOf 10 value

/-- Modelled from the spec: the encoder is missing from the sources. Byte `j`
of a bit sequence packed most significant bit first; bits past the end of the
sequence are 0. -/
def byteOfBits (bits : List Bool) (j : Nat) : Nat :=
  ((List.range 8).map (fun i => (bits.getD (8 * j + i) false).toNat * 2 ^ (7 - i))).sum

/-- Modelled from the spec: the encoder is missing from the sources. A bit
sequence packed into bytes across byte boundaries. -/
def packBits (bits : List Bool) : List Nat :=
  (List.range ((bits.length + 7) / 8)).map (byteOfBits bits)

/-- Modelled from the spec: the encoder is missing from the sources. The body
is the 20 actions in slot order, bit-packed. -/
def encodeBody (L : Layout) : List Nat :=
  packBits (L.toList.foldr (fun a acc => actionBits a ++ acc) [])

/-- Modelled from the spec: the encoder is missing from the sources. The
platforms of the enum range, ascending, that the list of pairs names. -/
def listedPlatforms (E : ProfileEnums) (pairs : List PlatformConfig) : List Nat :=
  (platformRange E).filter (fun p => pairs.any (fun c => c.platform == p))

/-- Modelled from the spec: the encoder is missing from the sources. The
position the list of pairs gives platform `p`. -/
def positionOf (pairs : List PlatformConfig) (p : Nat) : Nat :=
  match pairs.find? (fun c => c.platform == p) with
  | some c => c.position
  | none => 0

/-- Modelled from the spec: the encoder is missing from the sources. Positions
packed two to a byte, the first of each pair in the high nibble. -/
def packNibbles : List Nat → List Nat
  | [] => []
  | [a] => [a * 16]
  | a :: b :: rest => (a * 16 + b) :: packNibbles rest

/-- Modelled from the spec: the encoder is missing from the sources. The
header has bit `8 - p` of the bitmap byte set for every listed platform `p`,
and the positions nibble-packed in ascending platform order. -/
def encodeHeader (E : ProfileEnums) (pairs : List PlatformConfig) : Header :=
  { bitmap := ((listedPlatforms E pairs).map (fun p => 1 <<< (8 - p))).sum % 256
    positions := packNibbles ((listedPlatforms E pairs).map (positionOf pairs)) }

/-- The bytes of a header. -/
def Header.bytes (h : Header) : List Nat := h.bitmap :: h.positions

/-- Modelled from the spec: the encoder is missing from the sources. A record
is its header followed by its body. -/
def encodeRecord (E : ProfileEnums) (pairs : List PlatformConfig) (L : Layout) : List Nat :=
  (encodeHeader E pairs).bytes ++ encodeBody L

/-- Modelled from the spec: the encoder is missing from the sources. The store
image: addresses 0 to 15 are not the decoder's, 16 and 17 hold the big-endian
length of everything after them, and the records follow from 18 on. -/
def encodeStore (records : List (List Nat)) : List Nat :=
  List.replicate 16 0 ++
    [(records.foldr (fun r acc => r ++ acc) []).length / 256,
     (records.foldr (fun r acc => r ++ acc) []).length % 256] ++
    records.foldr (fun r acc => r ++ acc) []

/-! ## Concrete data for the examples -/

/-- A store given by its first bytes; every other address reads 0. -/
def storeOfList (l : List Nat) : Store := fun a => l.getD a 0

/-- Enum constants for the examples: platform values 0 to 8 and lowest analog
id 28. The generated header with the real values is not at hand; no general
statement below depends on this choice. -/
def exampleEnums : ProfileEnums :=
  { Platform_MIN := 0, Platform_MAX := 8, R_STICK_Y := 28 }

/-- Out-of-table memory holding zeros. -/
def oobZero : Nat → Nat := fun _ => 0

/-- Out-of-table memory holding words with all 32 bits set. -/
def oobOnes : Nat → Nat := fun _ => 0xFFFFFFFF

/-- A header at address 18 listing platforms 2, 5 and 7, with positions 1, 2
and 3 packed as `0x12 0x30`. -/
def headerStore257 : Store :=
  storeOfList (List.replicate 18 0 ++ [0b01001010, 0x12, 0x30])

/-- A header at address 0 listing platforms 1 and 2, with positions 5 and 10
packed into the one byte `0x5A`. -/
def headerStore5A : Store := storeOfList [0b11000000, 0x5A]

/-- The headers of the two records of `twoRecordStore`. -/
def twoRecordHeaders : List Header :=
  [{ bitmap := 0x80, positions := [0x30] }, { bitmap := 0x60, positions := [0x12] }]

/-- Two records at address 18: headers `0x80 0x30` (platform 1 at position 3)
and `0x60 0x12` (platforms 2 and 3 at positions 1 and 2), each followed by 13
body bytes; the length bytes at 16 and 17 say 30. -/
def twoRecordStore : Store :=
  storeOfList (List.replicate 16 0 ++ [0, 30] ++ [0x80, 0x30] ++ List.replicate 13 0 ++
    [0x60, 0x12] ++ List.replicate 13 0)

instance CursorOK.decidable (s : Store) (c : Cursor) : Decidable (CursorOK s c) :=
  inferInstanceAs (Decidable (1 ≤ c.unread ∧ c.unread ≤ 8 ∧ 1 ≤ c.addr ∧
    c.curr_byte = EEPROMread s (c.addr - 1)))

/-- The bytes `0xAB 0xCD 0xEF` at addresses 0 to 2. -/
def fetchStore : Store := storeOfList [0xAB, 0xCD, 0xEF]

/-- A layout of digital actions with ids 1 to 20. -/
def digitalLayout : Layout :=
  { thumb_top := Action.digital 1, thumb_middle := Action.digital 2,
    thumb_bottom := Action.digital 3, index_top := Action.digital 4,
    index_middle := Action.digital 5, middle_top := Action.digital 6,
    middle_middle := Action.digital 7, middle_bottom := Action.digital 8,
    ring_top := Action.digital 9, ring_middle := Action.digital 10,
    ring_bottom := Action.digital 11, pinky_top := Action.digital 12,
    pinky_middle := Action.digital 13, pinky_bottom := Action.digital 14,
    left_index_extra := Action.digital 15, left_middle_extra := Action.digital 16,
    left_ring_extra := Action.digital 17, right_index_extra := Action.digital 18,
    right_middle_extra := Action.digital 19, right_ring_extra := Action.digital 20 }

/-- The digital layout with the first slot replaced by the analog action with
id 31 and value 960. -/
def analogLayout : Layout :=
  { digitalLayout with thumb_top := Action.analog 31 960 }

/-- One record serving platform 1 at position 5 and platform 2 at position
10, with the digital layout. -/
def sharedByteStore : Store :=
  storeOfList (encodeStore [encodeRecord exampleEnums [⟨1, 5⟩, ⟨2, 10⟩] digitalLayout])

/-- One record serving platform 1 at position 0, with the analog layout. -/
def analogStore : Store :=
  storeOfList (encodeStore [encodeRecord exampleEnums [⟨1, 0⟩] analogLayout])

/-- Two records: the first serves platform 1 at position 0 with the analog
layout, the second serves platform 2 at position 0 with the digital layout. -/
def analogFirstStore : Store :=
  storeOfList (encodeStore [encodeRecord exampleEnums [⟨1, 0⟩] analogLayout,
    encodeRecord exampleEnums [⟨2, 0⟩] digitalLayout])

/-- Length bytes saying 1, and the bitmap byte `0x80` at address 18. -/
def lengthOneStore : Store := storeOfList (List.replicate 16 0 ++ [0, 1, 0x80])

/-- Length bytes saying 3, the header `0x80 0x00` (platform 1 at position 0)
at address 18, and one more byte at address 20. -/
def lengthThreeStore : Store := storeOfList (List.replicate 16 0 ++ [0, 3, 0x80, 0x00, 0x08])

/-- A store that reads 0 at every address. -/
def zeroStore : Store := storeOfList []

/-- A layout of digital actions with ids 20 down to 1. -/
def reversedLayout : Layout :=
  { thumb_top := Action.digital 20, thumb_middle := Action.digital 19,
    thumb_bottom := Action.digital 18, index_top := Action.digital 17,
    index_middle := Action.digital 16, middle_top := Action.digital 15,
    middle_middle := Action.digital 14, middle_bottom := Action.digital 13,
    ring_top := Action.digital 12, ring_middle := Action.digital 11,
    ring_bottom := Action.digital 10, pinky_top := Action.digital 9,
    pinky_middle := Action.digital 8, pinky_bottom := Action.digital 7,
    left_index_extra := Action.digital 6, left_middle_extra := Action.digital 5,
    left_ring_extra := Action.digital 4, right_index_extra := Action.digital 3,
    right_middle_extra := Action.digital 2, right_ring_extra := Action.digital 1 }

/-- Two records with different bodies: the first serves platform 1 at
position 3 with the digital layout of ids 1 to 20, the second serves platform
2 at position 1 and platform 3 at position 2 with the layout of ids 20 down
to 1. -/
def twoLayoutStore : Store :=
  storeOfList (encodeStore [encodeRecord exampleEnums [⟨1, 3⟩] digitalLayout,
    encodeRecord exampleEnums [⟨2, 1⟩, ⟨3, 2⟩] reversedLayout])

/-! ## Lemmas on the bit stream and `FetchData` -/

theorem EEPROMread_lt (s : Store) (a : Nat) : EEPROMread s a < 256 :=
  Nat.mod_lt _ (by decide)

theorem streamValue_lt (s : Store) (pos n : Nat) : streamValue s pos n < 2 ^ n := by
  induction n with
  | zero => simp [streamValue]
  | succ n ih =>
    have hb : streamBit s (pos + n) < 2 := Nat.mod_lt _ (by decide)
    rw [streamValue, Nat.pow_succ]
    omega

/-- Reading `m + n` bits is reading `m` bits and then `n` bits. -/
theorem streamValue_add (s : Store) (pos m n : Nat) :
    streamValue s pos (m + n) = streamValue s pos m * 2 ^ n + streamValue s (pos + m) n := by
  induction n with
  | zero => simp [streamValue]
  | succ n ih =>
    rw [← Nat.add_assoc, streamValue, ih, streamValue, Nat.pow_succ, Nat.add_assoc pos m n]
    ring

/-- Bits that lie within one byte: `n` bits from offset `o` of byte `a`. -/
theorem streamValue_in_byte (s : Store) (a o n : Nat) (h : o + n ≤ 8) :
    streamValue s (8 * a + o) n = (EEPROMread s a >>> (8 - o - n)) % 2 ^ n := by
  induction n with
  | zero => simp [streamValue, Nat.mod_one]
  | succ n ih =>
    have ih1 := ih (by omega)
    have hdiv : (8 * a + o + n) / 8 = a := by omega
    have hmod : (8 * a + o + n) % 8 = o + n := by omega
    have hsh : 8 - o - n = (8 - o - (n + 1)) + 1 := by omega
    rw [streamValue, ih1, streamBit, Nat.add_assoc, ← Nat.add_assoc (8 * a), hdiv, hmod, hsh,
      Nat.shiftRight_succ]
    have h7 : 7 - (o + n) = 8 - o - (n + 1) := by omega
    rw [h7, Nat.pow_succ, Nat.mul_comm (2 ^ n) 2, Nat.mod_mul]
    omega

theorem kMasksAt_eq (oob : Nat → Nat) (r : Nat) (h1 : 1 ≤ r) (h8 : r ≤ 8) :
    kMasksAt oob (r - 1) = 2 ^ r - 1 := by
  interval_cases r <;> rfl

theorem cursorAt_pos (s : Store) (c : Cursor) (h : CursorOK s c) : cursorAt s c.pos = c := by
  obtain ⟨h1, h8, ha, hb⟩ := h
  cases c with
  | mk addr b u =>
    simp only [Cursor.pos, cursorAt] at *
    have e1 : (8 * addr - u) / 8 = addr - 1 := by omega
    have e2 : (8 * addr - u) % 8 = 8 - u := by omega
    rw [e1, e2, ← hb]
    congr 1 <;> omega

theorem cursorAt_ok (s : Store) (p : Nat) : CursorOK s (cursorAt s p) := by
  refine ⟨?_, ?_, ?_, ?_⟩ <;> simp only [cursorAt] <;> first | omega | rfl

theorem pos_cursorAt (s : Store) (p : Nat) : (cursorAt s p).pos = p := by
  simp only [Cursor.pos, cursorAt]
  omega

theorem FetchDataLoop_zero (oob : Nat → Nat) (s : Store) (fuel d : Nat) (c : Cursor) :
    FetchDataLoop oob s fuel 0 d c = some (d, c) := by
  cases fuel <;> simp [FetchDataLoop]

/-- One pass of the loop when the requested bits end within the current
byte. -/
theorem FetchDataLoop_within (oob : Nat → Nat) (s : Store) (fuel r d : Nat) (c : Cursor)
    (hr : 0 < r) (hu : r ≤ c.unread) :
    FetchDataLoop oob s (fuel + 1) r d c =
      some (d ||| ((c.curr_byte >>> (c.unread - r)) &&& kMasksAt oob (r - 1)),
        if c.unread - r = 0 then
          { addr := c.addr + 1, curr_byte := EEPROMread s c.addr, unread := 8 }
        else { addr := c.addr, curr_byte := c.curr_byte, unread := c.unread - r }) := by
  have h1 : ¬ c.unread < r := by omega
  rw [FetchDataLoop]
  simp only [gt_iff_lt, hr, if_true, hu, h1, if_false, Nat.sub_self]
  split <;> exact FetchDataLoop_zero oob s fuel _ _

/-- One pass of the loop when the requested bits run past the current
byte. -/
theorem FetchDataLoop_cross (oob : Nat → Nat) (s : Store) (fuel r d : Nat) (c : Cursor)
    (hu : c.unread < r) :
    FetchDataLoop oob s (fuel + 1) r d c =
      FetchDataLoop oob s fuel (r - c.unread)
        (d ||| ((c.curr_byte <<< (r - c.unread)) &&& kMasksAt oob (r - 1)))
        { addr := c.addr + 1, curr_byte := EEPROMread s c.addr, unread := 8 } := by
  have hr : 0 < r := by omega
  have h1 : ¬ r ≤ c.unread := by omega
  rw [FetchDataLoop]
  simp only [gt_iff_lt, hr, if_true, hu, h1, if_false, Nat.sub_self]

/-- The loop of `FetchData` always ends, and leaves the cursor `r` bits
further on, whatever the mask table yields. -/
theorem FetchDataLoop_cursor (oob : Nat → Nat) (s : Store) :
    ∀ (fuel r d : Nat) (c : Cursor), CursorOK s c → r < fuel →
      ∃ v, FetchDataLoop oob s fuel r d c = some (v, cursorAt s (c.pos + r)) := by
  intro fuel
  induction fuel with
  | zero => intro r d c _ h; omega
  | succ fuel ih =>
    intro r d c hc hf
    obtain ⟨h1, h8, ha, hb⟩ := hc
    rcases Nat.eq_zero_or_pos r with h0 | hr
    · subst h0
      exact ⟨d, by rw [FetchDataLoop_zero, Nat.add_zero, cursorAt_pos s c ⟨h1, h8, ha, hb⟩]⟩
    · by_cases hu : r ≤ c.unread
      · refine ⟨d ||| ((c.curr_byte >>> (c.unread - r)) &&& kMasksAt oob (r - 1)), ?_⟩
        rw [FetchDataLoop_within oob s fuel r d c hr hu]
        congr 2
        simp only [Cursor.pos, cursorAt]
        split
        · have e1 : (8 * c.addr - c.unread + r) / 8 = c.addr := by omega
          have e2 : (8 * c.addr - c.unread + r) % 8 = 0 := by omega
          rw [e1, e2]
        · have e1 : (8 * c.addr - c.unread + r) / 8 = c.addr - 1 := by omega
          have e2 : (8 * c.addr - c.unread + r) % 8 = 8 - (c.unread - r) := by omega
          rw [e1, e2, hb]
          congr 1 <;> omega
      · have hu1 : c.unread < r := by omega
        rw [FetchDataLoop_cross oob s fuel r d c hu1]
        have hc1 : CursorOK s
            { addr := c.addr + 1, curr_byte := EEPROMread s c.addr, unread := 8 } :=
          ⟨by simp, by simp, by simp, by simp⟩
        obtain ⟨v, hv⟩ := ih (r - c.unread) _ _ hc1 (by omega)
        refine ⟨v, ?_⟩
        rw [hv]
        congr 3
        simp only [Cursor.pos]
        omega

/-- With every mask index inside the table (`r ≤ 8`), the loop appends the
next `r` stream bits below the bits already collected. -/
theorem FetchDataLoop_value (oob : Nat → Nat) (s : Store) :
    ∀ (fuel r q : Nat) (c : Cursor), CursorOK s c → r ≤ 8 → r < fuel →
      FetchDataLoop oob s fuel r (2 ^ r * q) c =
        some (2 ^ r * q + streamValue s c.pos r, cursorAt s (c.pos + r)) := by
  intro fuel
  induction fuel with
  | zero => intro r q c _ _ h; omega
  | succ fuel ih =>
    intro r q c hc hr8 hf
    obtain ⟨v, hv⟩ := FetchDataLoop_cursor oob s (fuel + 1) r (2 ^ r * q) c hc hf
    obtain ⟨h1, h8, ha, hb⟩ := hc
    rcases Nat.eq_zero_or_pos r with h0 | hr
    · subst h0
      rw [FetchDataLoop_zero] at hv ⊢
      simp only [Option.some.injEq, Prod.mk.injEq] at hv
      rw [← hv.2]
      simp [streamValue]
    · have hpos : c.pos = 8 * (c.addr - 1) + (8 - c.unread) := by
        simp only [Cursor.pos]; omega
      by_cases hu : r ≤ c.unread
      · rw [FetchDataLoop_within oob s fuel r _ c hr hu] at hv ⊢
        simp only [Option.some.injEq, Prod.mk.injEq] at hv
        rw [hv.2, kMasksAt_eq oob r hr hr8, Nat.and_pow_two_sub_one_eq_mod,
          ← Nat.mul_add_lt_is_or (Nat.mod_lt _ (Nat.two_pow_pos r)), hpos,
          streamValue_in_byte s (c.addr - 1) (8 - c.unread) r (by omega), ← hb]
        have e : 8 - (8 - c.unread) - r = c.unread - r := by omega
        rw [e]
      · have hu1 : c.unread < r := by omega
        rw [FetchDataLoop_cross oob s fuel r _ c hu1] at hv ⊢
        have hc1 : CursorOK s
            { addr := c.addr + 1, curr_byte := EEPROMread s c.addr, unread := 8 } :=
          ⟨by simp, by simp, by simp, by simp⟩
        have hsplit : 2 ^ r = 2 ^ c.unread * 2 ^ (r - c.unread) := by
          rw [← Nat.pow_add]; congr 1; omega
        have hdata : (2 ^ r * q) |||
            ((c.curr_byte <<< (r - c.unread)) &&& kMasksAt oob (r - 1)) =
            2 ^ (r - c.unread) * (2 ^ c.unread * q + c.curr_byte % 2 ^ c.unread) := by
          rw [kMasksAt_eq oob r hr hr8, Nat.and_pow_two_sub_one_eq_mod,
            ← Nat.mul_add_lt_is_or (Nat.mod_lt _ (Nat.two_pow_pos r)), Nat.shiftLeft_eq]
          conv_lhs => rw [hsplit]
          rw [Nat.mul_mod_mul_right]
          ring
        rw [hdata, ih (r - c.unread) _ _ hc1 (by omega) (by omega)]
        congr 2
        · have hr2 : r = c.unread + (r - c.unread) := by omega
          have hp1 : Cursor.pos ⟨c.addr + 1, EEPROMread s c.addr, 8⟩ = c.pos + c.unread := by
            simp only [Cursor.pos]; omega
          conv_rhs => rw [hr2, streamValue_add s c.pos c.unread (r - c.unread)]
          rw [hp1]
          have hfirst : streamValue s c.pos c.unread = c.curr_byte % 2 ^ c.unread := by
            rw [hpos, streamValue_in_byte s (c.addr - 1) (8 - c.unread) c.unread (by omega), ← hb]
            have e : 8 - (8 - c.unread) - c.unread = 0 := by omega
            rw [e, Nat.shiftRight_zero]
          rw [hfirst]
          conv_rhs => rw [← hr2, hsplit]
          ring
        · congr 1
          simp only [Cursor.pos]
          omega

/-- `FetchData` returns for every width and every well-formed cursor, and
advances the cursor by exactly `n` bits. -/
theorem FetchData_cursor (oob : Nat → Nat) (s : Store) (n : Nat) (c : Cursor)
    (hc : CursorOK s c) :
    ∃ v, FetchData oob s n c = some (v, cursorAt s (c.pos + n)) :=
  FetchDataLoop_cursor oob s (n + 1) n 0 c hc (Nat.lt_succ_self n)

/-- For widths up to eight `FetchData` returns the next `n` stream bits. -/
theorem FetchData_value (oob : Nat → Nat) (s : Store) (n : Nat) (c : Cursor)
    (hc : CursorOK s c) (h8 : n ≤ 8) :
    FetchData oob s n c = some (streamValue s c.pos n, cursorAt s (c.pos + n)) := by
  have h := FetchDataLoop_value oob s (n + 1) n 0 c hc h8 (Nat.lt_succ_self n)
  simpa [FetchData] using h

/-! ## Lemmas on `DecodeHeader` -/

theorem platformBit_eq_testBit (bitmap p : Nat) :
    platformBit bitmap p = bitmap.testBit (8 - p) := by
  unfold platformBit
  rw [Nat.shiftLeft_eq, Nat.one_mul, Nat.and_two_pow]
  cases h : bitmap.testBit (8 - p)
  · simp
  · simp

theorem configsFrom_length (s : Store) (a1 : Nat) (ps : List Nat) :
    ∀ k, (configsFrom s a1 k ps).length = ps.length := by
  induction ps with
  | nil => intro k; rfl
  | cons p ps ih => intro k; simp [configsFrom, ih]

theorem configsFrom_platforms (s : Store) (a1 : Nat) (ps : List Nat) :
    ∀ k, (configsFrom s a1 k ps).map (fun c => c.platform) = ps := by
  induction ps with
  | nil => intro k; rfl
  | cons p ps ih => intro k; simp [configsFrom, ih]

theorem readsFrom_succ (a1 k m : Nat) :
    readsFrom a1 k (m + 1) = (a1 + k / 2) :: readsFrom a1 (k + 1) m := by
  simp only [readsFrom, List.range_succ_eq_map, List.map_cons, List.map_map, Nat.add_zero]
  congr 1
  apply List.map_congr_left
  intro j _
  simp only [Function.comp, Nat.succ_eq_add_one]
  congr 2
  omega

/-- The loop of `DecodeHeader` over the platforms `ps`, from any state in
which `addr` is in step with the number of configs. -/
theorem foldl_headerStep (s : Store) (bm a1 : Nat) (ps : List Nat) :
    ∀ st : HeaderState, st.addr = a1 + st.configs.length / 2 →
      ps.foldl (headerStep s bm) st =
        { addr := a1 + (st.configs.length + (ps.filter (platformBit bm)).length) / 2
          configs := st.configs ++
            configsFrom s a1 st.configs.length (ps.filter (platformBit bm))
          reads := st.reads ++
            readsFrom a1 st.configs.length (ps.filter (platformBit bm)).length } := by
  induction ps with
  | nil =>
    intro st h
    cases st
    simp_all [configsFrom, readsFrom]
  | cons p ps ih =>
    intro st h
    rw [List.foldl_cons]
    by_cases hb : platformBit bm p = true
    · rw [List.filter_cons_of_pos hb]
      by_cases hk : st.configs.length % 2 = 0
      · have hstep : headerStep s bm st p =
            { addr := st.addr
              configs := st.configs ++ [⟨p, EEPROMread s st.addr >>> 4⟩]
              reads := st.reads ++ [st.addr] } := by
          simp [headerStep, hb, hk]
        rw [hstep, ih _ (by simp only [List.length_append, List.length_singleton]; omega)]
        simp only [List.length_append, List.length_singleton, List.length_cons, List.length_nil,
          List.append_assoc, List.singleton_append, configsFrom, readsFrom_succ,
          decodedPosition, hk, if_true, h]
        congr 1
        omega
      · have hstep : headerStep s bm st p =
            { addr := st.addr + 1
              configs := st.configs ++ [⟨p, EEPROMread s st.addr &&& 0xFF⟩]
              reads := st.reads ++ [st.addr] } := by
          simp [headerStep, hb, hk]
        rw [hstep, ih _ (by simp only [List.length_append, List.length_singleton]; omega)]
        simp only [List.length_append, List.length_singleton, List.length_cons, List.length_nil,
          List.append_assoc, List.singleton_append, configsFrom, readsFrom_succ,
          decodedPosition, hk, if_false, h]
        congr 1
        omega
    · have hstep : headerStep s bm st p = st := by
        simp [headerStep, hb]
      rw [hstep, List.filter_cons_of_neg hb]
      exact ih st h

theorem filter_platformBit (E : ProfileEnums) (bm : Nat) :
    (platformRange E).filter (platformBit bm) = presentPlatforms E bm := by
  unfold presentPlatforms
  congr 1
  funext p
  exact platformBit_eq_testBit bm p

/-- The final state of `DecodeHeader(addr)` in closed form. -/
theorem DecodeHeaderRun_eq (E : ProfileEnums) (s : Store) (addr : Nat) :
    DecodeHeaderRun E s addr =
      { addr := addr + 1 + (presentPlatforms E (EEPROMread s addr)).length / 2
        configs := configsFrom s (addr + 1) 0 (presentPlatforms E (EEPROMread s addr))
        reads := addr :: readsFrom (addr + 1) 0 (presentPlatforms E (EEPROMread s addr)).length } := by
  unfold DecodeHeaderRun
  rw [foldl_headerStep s _ (addr + 1) _ _ (by simp), filter_platformBit]
  simp

theorem DecodeHeader_eq (E : ProfileEnums) (s : Store) (addr : Nat) :
    DecodeHeader E s addr =
      configsFrom s (addr + 1) 0 (presentPlatforms E (EEPROMread s addr)) := by
  unfold DecodeHeader
  rw [DecodeHeaderRun_eq]

theorem DecodeHeader_length (E : ProfileEnums) (s : Store) (addr : Nat) :
    (DecodeHeader E s addr).length = (presentPlatforms E (EEPROMread s addr)).length := by
  rw [DecodeHeader_eq, configsFrom_length]

theorem platformRange_sorted (E : ProfileEnums) :
    (platformRange E).Pairwise (fun a b => a < b) := by
  unfold platformRange
  rw [List.pairwise_map]
  exact (List.pairwise_lt_range _).imp (fun h => by omega)

theorem mem_platformRange (E : ProfileEnums) (p : Nat) :
    p ∈ platformRange E ↔ E.Platform_MIN ≤ p ∧ p ≤ E.Platform_MAX := by
  unfold platformRange
  simp only [List.mem_map, List.mem_range]
  constructor
  · rintro ⟨i, hi, rfl⟩
    omega
  · intro h
    exact ⟨p - E.Platform_MIN, by omega, by omega⟩

theorem configsFrom_getElem (s : Store) (a1 : Nat) (ps : List Nat) :
    ∀ (k0 k : Nat) (c : PlatformConfig), (configsFrom s a1 k0 ps)[k]? = some c →
      ps[k]? = some c.platform ∧ c.position = decodedPosition s a1 (k0 + k) := by
  induction ps with
  | nil => intro k0 k c h; simp [configsFrom] at h
  | cons p ps ih =>
    intro k0 k c h
    cases k with
    | zero =>
      simp only [configsFrom, List.getElem?_cons_zero, Option.some.injEq] at h
      subst h
      simp
    | succ k =>
      simp only [configsFrom, List.getElem?_cons_succ] at h
      have := ih (k0 + 1) k c h
      simp only [List.getElem?_cons_succ]
      refine ⟨this.1, ?_⟩
      rw [this.2]
      congr 1
      omega

theorem presentPlatforms_sorted (E : ProfileEnums) (bm : Nat) :
    (presentPlatforms E bm).Pairwise (fun a b => a < b) :=
  (platformRange_sorted E).sublist (List.filter_sublist _)

theorem mem_presentPlatforms (E : ProfileEnums) (bm p : Nat) :
    p ∈ presentPlatforms E bm ↔
      E.Platform_MIN ≤ p ∧ p ≤ E.Platform_MAX ∧ bm.testBit (8 - p) = true := by
  unfold presentPlatforms
  rw [List.mem_filter, mem_platformRange]
  tauto

theorem headerLen_eq (configs : List PlatformConfig) :
    headerLen configs = (configs.length + 1) / 2 + 1 := by
  unfold headerLen
  omega

/-- The addresses `DecodeHeader` reads are the bitmap byte and the position
bytes up to the last one used. -/
theorem reads_toFinset (a m : Nat) :
    (a :: readsFrom (a + 1) 0 m).toFinset = Finset.Icc a (a + (m + 1) / 2) := by
  ext x
  simp only [readsFrom, List.toFinset_cons, List.mem_toFinset, Finset.mem_insert, List.mem_map,
    List.mem_range, Finset.mem_Icc, Nat.zero_add]
  constructor
  · rintro (rfl | ⟨j, hj, rfl⟩) <;> omega
  · intro h
    by_cases hx : x = a
    · exact Or.inl hx
    · exact Or.inr ⟨2 * (x - a - 1), by omega, by omega⟩

/-! ## Lemmas on the scan of `Decode` -/

theorem and_255 (x : Nat) : x &&& 0xFF = x % 256 :=
  Nat.and_pow_two_sub_one_eq_mod x 8

theorem encodedLen_eq (s : Store) :
    encodedLen s = EEPROMread s 16 * 256 + EEPROMread s 17 := by
  unfold encodedLen kMinAddr
  have h := EEPROMread_lt s 17
  rw [Nat.shiftLeft_eq, Nat.mul_comm, ← Nat.mul_add_lt_is_or (i := 8) h, Nat.mul_comm]

/-- A config that `DecodeHeader` returns with a position below 16 is an entry
of the header by the nibble rule. -/
theorem matches_configsFrom (s : Store) (a : Nat) (h : Header)
    (hat : HeaderAt s a h) (p q : Nat) (hq : q < 16) (ps : List Nat) :
    ∀ k, (k + ps.length + 1) / 2 ≤ h.positions.length →
      matchesRequest (configsFrom s (a + 1) k ps) p q = true →
      (⟨p, q⟩ : PlatformConfig) ∈ entriesFrom h.positions k ps := by
  induction ps with
  | nil => intro k _ hm; simp [configsFrom, matchesRequest] at hm
  | cons p1 ps ih =>
    intro k hk hm
    simp only [List.length_cons] at hk
    simp only [configsFrom, matchesRequest, List.any_cons, Bool.or_eq_true, Bool.and_eq_true,
      beq_iff_eq] at hm
    rw [entriesFrom, List.mem_cons]
    rcases hm with ⟨hp, hpos⟩ | hrest
    · left
      have hbyte := hat.2 (k / 2) (by omega)
      have hlt := EEPROMread_lt s (a + 1 + k / 2)
      simp only [decodedPosition] at hpos
      simp only [nibble, ← hbyte]
      rw [PlatformConfig.mk.injEq]
      refine ⟨hp.symm, ?_⟩
      by_cases hev : k % 2 = 0
      · simp only [hev, if_true] at hpos ⊢
        rw [Nat.shiftRight_eq_div_pow] at hpos
        exact hpos.symm
      · simp only [hev, if_false] at hpos ⊢
        rw [and_255] at hpos
        omega
    · right
      exact ih (k + 1) (by omega) hrest

/-- A request with a position below 16 that is no entry of a well-formed
header does not match what `DecodeHeader` returns for it. -/
theorem no_match_of_not_entry (E : ProfileEnums) (s : Store) (a : Nat) (h : Header)
    (hwf : Header.WF E h) (hat : HeaderAt s a h) (p q : Nat) (hq : q < 16)
    (habs : (⟨p, q⟩ : PlatformConfig) ∉ h.entries E) :
    matchesRequest (DecodeHeader E s a) p q = false := by
  rw [Bool.eq_false_iff]
  intro hm
  apply habs
  rw [DecodeHeader_eq, hat.1] at hm
  exact matches_configsFrom s a h hat p q hq _ 0 (by rw [hwf.2.1]; omega) hm

theorem headerLen_of_headerAt (E : ProfileEnums) (s : Store) (a : Nat) (h : Header)
    (hwf : Header.WF E h) (hat : HeaderAt s a h) :
    headerLen (DecodeHeader E s a) = h.len := by
  rw [headerLen_eq, DecodeHeader_length, hat.1, Header.len, hwf.2.1]
  omega

/-- Over records none of which serves the request, the loop of `Decode`
examines every record and stops at the end of the last one. -/
theorem scanLoop_no_match (E : ProfileEnums) (s : Store) (p q M : Nat) (hq : q < 16) :
    ∀ (hs : List Header) (a fuel : Nat) (seen : List Nat),
      RecordsAt s a hs → (∀ h ∈ hs, Header.WF E h) →
      (∀ h ∈ hs, (⟨p, q⟩ : PlatformConfig) ∉ h.entries E) →
      a + recordsLen hs = M + 1 → hs.length ≤ fuel →
      scanLoop E s p q M fuel a seen = some (M + 1, seen ++ recordStarts a hs) := by
  intro hs
  induction hs with
  | nil =>
    intro a fuel seen _ _ _ hlen _
    simp only [recordsLen, Nat.add_zero] at hlen
    subst hlen
    cases fuel <;> simp [scanLoop, recordStarts]
  | cons h hs ih =>
    intro a fuel seen hrec hwf habs hlen hfuel
    obtain ⟨hat, hrest⟩ := hrec
    have hwf1 := hwf h (List.mem_cons_self _ _)
    have habs1 := habs h (List.mem_cons_self _ _)
    simp only [recordsLen, Header.len] at hlen
    simp only [List.length_cons] at hfuel
    cases fuel with
    | zero => omega
    | succ fuel =>
      have hlt : a < M := by omega
      rw [scanLoop]
      simp only [hlt, if_true, no_match_of_not_entry E s a h hwf1 hat p q hq habs1,
        headerLen_of_headerAt E s a h hwf1 hat, Bool.false_eq_true, if_false]
      rw [ih (a + h.len + 13) fuel (seen ++ [a]) hrest
        (fun h' hh => hwf h' (List.mem_cons_of_mem _ hh))
        (fun h' hh => habs h' (List.mem_cons_of_mem _ hh))
        (by simp only [Header.len]; omega) (by omega)]
      simp [recordStarts]

theorem recordsLen_ge (hs : List Header) : 14 * hs.length ≤ recordsLen hs := by
  induction hs with
  | nil => simp [recordsLen]
  | cons h hs ih =>
    simp only [recordsLen, List.length_cons, Header.len]
    omega

theorem headerLen_pos (configs : List PlatformConfig) : 1 ≤ headerLen configs := by
  unfold headerLen
  omega

/-- The loop of `Decode` ends for every store and request when it has as much
fuel as addresses are left below `max_addr`. It examines only addresses below
`max_addr`, the start address among them when that is below `max_addr`, and
it stops either on a header that matches, just past that header, or at an
address that is not below `max_addr`. -/
theorem scanLoop_inv (E : ProfileEnums) (s : Store) (p q M : Nat) :
    ∀ (fuel a : Nat) (seen : List Nat), M ≤ a + fuel →
      ∃ b seen1, scanLoop E s p q M fuel a seen = some (b, seen ++ seen1) ∧
        (∀ x ∈ seen1, x < M) ∧ (a < M → a ∈ seen1) ∧
        (M ≤ b ∨ ∃ a1 init, seen1 = init ++ [a1] ∧
          matchesRequest (DecodeHeader E s a1) p q = true ∧
          b = a1 + headerLen (DecodeHeader E s a1)) := by
  intro fuel
  induction fuel with
  | zero =>
    intro a seen h
    have hlt : ¬ a < M := by omega
    exact ⟨a, [], by simp [scanLoop, hlt], by simp, fun h1 => absurd h1 hlt, Or.inl (by omega)⟩
  | succ fuel ih =>
    intro a seen h
    by_cases hlt : a < M
    · by_cases hm : matchesRequest (DecodeHeader E s a) p q = true
      · refine ⟨a + headerLen (DecodeHeader E s a), [a], ?_, ?_, ?_, ?_⟩
        · rw [scanLoop]
          simp only [hlt, if_true, hm]
        · intro x hx
          rw [List.mem_singleton] at hx
          omega
        · intro _
          exact List.mem_singleton_self a
        · exact Or.inr ⟨a, [], rfl, hm, rfl⟩
      · have hpos := headerLen_pos (DecodeHeader E s a)
        obtain ⟨b, seen2, hrun, hbelow, _, hstop⟩ :=
          ih (a + headerLen (DecodeHeader E s a) + 13) (seen ++ [a]) (by omega)
        refine ⟨b, a :: seen2, ?_, ?_, ?_, ?_⟩
        · rw [scanLoop]
          simp only [hlt, if_true, hm, Bool.false_eq_true, if_false, hrun]
          simp
        · intro x hx
          rw [List.mem_cons] at hx
          rcases hx with rfl | hx
          · exact hlt
          · exact hbelow x hx
        · intro _
          exact List.mem_cons_self a seen2
        · rcases hstop with hb | ⟨a1, init, hinit, hmatch, hb⟩
          · exact Or.inl hb
          · exact Or.inr ⟨a1, a :: init, by rw [hinit]; rfl, hmatch, hb⟩
    · exact ⟨a, [], by simp [scanLoop, hlt], by simp, fun h1 => absurd h1 hlt, Or.inl (by omega)⟩

/-! ## Lemmas on the path of the scan -/

theorem presentPlatforms_zero (E : ProfileEnums) : presentPlatforms E 0 = [] := by
  unfold presentPlatforms
  rw [List.filter_eq_nil_iff]
  intro p _
  simp

/-- No config that `DecodeHeader` returns has platform value 0: bit 8 of a
byte is never set. -/
theorem DecodeHeader_platform_ne_zero (E : ProfileEnums) (s : Store) (addr : Nat)
    (c : PlatformConfig) (hc : c ∈ DecodeHeader E s addr) : c.platform ≠ 0 := by
  intro h0
  have hmem : c.platform ∈ (DecodeHeader E s addr).map (fun c => c.platform) :=
    List.mem_map_of_mem _ hc
  rw [DecodeHeader_eq, configsFrom_platforms, mem_presentPlatforms, h0] at hmem
  have hbit : (EEPROMread s addr).testBit 8 = false :=
    Nat.testBit_lt_two_pow (EEPROMread_lt s addr)
  rw [Nat.sub_zero, hbit] at hmem
  exact absurd hmem.2.2 (by decide)

theorem matchesRequest_zero (E : ProfileEnums) (s : Store) (addr q : Nat) :
    matchesRequest (DecodeHeader E s addr) 0 q = false := by
  rw [Bool.eq_false_iff]
  intro h
  simp only [matchesRequest, List.any_eq_true, Bool.and_eq_true, beq_iff_eq] at h
  obtain ⟨c, hc, hp, _⟩ := h
  exact DecodeHeader_platform_ne_zero E s addr c hc hp

theorem chainFrom_succ (E : ProfileEnums) (s : Store) (i : Nat) :
    ∀ a, chainFrom E s a (i + 1) =
      chainFrom E s a i + headerLen (DecodeHeader E s (chainFrom E s a i)) + 13 := by
  induction i with
  | zero => intro a; rfl
  | succ i ih =>
    intro a
    rw [chainFrom, ih]
    rfl

theorem chainFrom_ge (E : ProfileEnums) (s : Store) (i : Nat) :
    ∀ a, a + 14 * i ≤ chainFrom E s a i := by
  induction i with
  | zero => intro a; simp [chainFrom]
  | succ i ih =>
    intro a
    have h := ih (a + headerLen (DecodeHeader E s a) + 13)
    have hpos := headerLen_pos (DecodeHeader E s a)
    rw [chainFrom]
    omega

theorem map_chainFrom_succ (E : ProfileEnums) (s : Store) (a n : Nat) :
    (List.range (n + 1)).map (chainFrom E s a) =
      a :: (List.range n).map (chainFrom E s (a + headerLen (DecodeHeader E s a) + 13)) := by
  rw [List.range_succ_eq_map, List.map_cons, List.map_map]
  rfl

/-- The loop of `Decode` walks the path of headers from `a`: it passes `n`
headers that do not match, and then either stops just past header `n`, which
is below `max_addr` and matches, or stops at header `n`, which is not below
`max_addr`. -/
theorem scanLoop_chain (E : ProfileEnums) (s : Store) (p q M : Nat) :
    ∀ (fuel a : Nat) (seen : List Nat), M ≤ a + fuel →
      ∃ n, (∀ j, j < n → chainFrom E s a j < M ∧
          matchesRequest (DecodeHeader E s (chainFrom E s a j)) p q = false) ∧
        ((chainFrom E s a n < M ∧
            matchesRequest (DecodeHeader E s (chainFrom E s a n)) p q = true ∧
            scanLoop E s p q M fuel a seen =
              some (chainFrom E s a n + headerLen (DecodeHeader E s (chainFrom E s a n)),
                seen ++ (List.range (n + 1)).map (chainFrom E s a))) ∨
          (M ≤ chainFrom E s a n ∧
            scanLoop E s p q M fuel a seen =
              some (chainFrom E s a n, seen ++ (List.range n).map (chainFrom E s a)))) := by
  intro fuel
  induction fuel with
  | zero =>
    intro a seen h
    have hlt : ¬ a < M := by omega
    exact ⟨0, fun j hj => absurd hj (Nat.not_lt_zero j),
      Or.inr ⟨by simp only [chainFrom]; omega, by simp [scanLoop, hlt, chainFrom]⟩⟩
  | succ fuel ih =>
    intro a seen h
    by_cases hlt : a < M
    · by_cases hm : matchesRequest (DecodeHeader E s a) p q = true
      · refine ⟨0, fun j hj => absurd hj (Nat.not_lt_zero j), Or.inl ⟨hlt, hm, ?_⟩⟩
        rw [scanLoop]
        simp only [hlt, if_true, hm, chainFrom]
        rfl
      · have hpos := headerLen_pos (DecodeHeader E s a)
        obtain ⟨n, hbefore, hstop⟩ :=
          ih (a + headerLen (DecodeHeader E s a) + 13) (seen ++ [a]) (by omega)
        have hrun : scanLoop E s p q M (fuel + 1) a seen =
            scanLoop E s p q M fuel (a + headerLen (DecodeHeader E s a) + 13) (seen ++ [a]) := by
          rw [scanLoop]
          simp only [hlt, if_true, hm, Bool.false_eq_true, if_false]
        refine ⟨n + 1, ?_, ?_⟩
        · intro j hj
          cases j with
          | zero => exact ⟨hlt, by simpa using hm⟩
          | succ j => exact hbefore j (by omega)
        · rw [hrun, map_chainFrom_succ E s a n, map_chainFrom_succ E s a (n + 1)]
          simp only [chainFrom]
          rcases hstop with ⟨h1, h2, h3⟩ | ⟨h1, h3⟩
          · refine Or.inl ⟨h1, h2, ?_⟩
            rw [h3, map_chainFrom_succ]
            simp
          · refine Or.inr ⟨h1, ?_⟩
            rw [h3]
            simp
    · exact ⟨0, fun j hj => absurd hj (Nat.not_lt_zero j),
        Or.inr ⟨by simp only [chainFrom]; omega, by
          cases fuel <;> simp [scanLoop, hlt, chainFrom]⟩⟩

/-- The result of the loop of `Decode` does not depend on the fuel, as long as
there is as much fuel as addresses are left below `max_addr`. -/
theorem scanLoop_fuel (E : ProfileEnums) (s : Store) (p q M : Nat) :
    ∀ (fuel1 fuel2 a : Nat) (seen : List Nat), M ≤ a + fuel1 → M ≤ a + fuel2 →
      scanLoop E s p q M fuel1 a seen = scanLoop E s p q M fuel2 a seen := by
  intro fuel1
  induction fuel1 with
  | zero =>
    intro fuel2 a seen h1 _
    have hlt : ¬ a < M := by omega
    cases fuel2 <;> simp [scanLoop, hlt]
  | succ fuel1 ih =>
    intro fuel2 a seen _ h2
    by_cases hlt : a < M
    · cases fuel2 with
      | zero => omega
      | succ fuel2 =>
        have hpos := headerLen_pos (DecodeHeader E s a)
        rw [scanLoop, scanLoop]
        simp only [hlt, if_true]
        split
        · rfl
        · exact ih fuel2 _ _ (by omega) (by omega)
    · cases fuel2 <;> simp [scanLoop, hlt]

/-- The lambda of `Decode` answers true exactly when the list holds a config
with the requested platform and the requested position. -/
theorem matchesRequest_iff (configs : List PlatformConfig) (p q : Nat) :
    matchesRequest configs p q = true ↔
      ∃ c ∈ configs, c.platform = p ∧ c.position = q := by
  simp only [matchesRequest, List.any_eq_true, Bool.and_eq_true, beq_iff_eq]

theorem matchesRequest_false_iff (configs : List PlatformConfig) (p q : Nat) :
    matchesRequest configs p q = false ↔
      ∀ c ∈ configs, ¬ (c.platform = p ∧ c.position = q) := by
  rw [← Bool.not_eq_true, matchesRequest_iff]
  constructor
  · intro h c hc hpq
    exact h ⟨c, hc, hpq⟩
  · rintro h ⟨c, hc, hpq⟩
    exact h c hc hpq

/-- The path of the scan is strictly ascending. -/
theorem chainFrom_lt (E : ProfileEnums) (s : Store) (a : Nat) :
    ∀ n j, j < n → chainFrom E s a j < chainFrom E s a n := by
  intro n
  induction n with
  | zero => intro j hj; omega
  | succ n ih =>
    intro j hj
    have hstep : chainFrom E s a n < chainFrom E s a (n + 1) := by
      rw [chainFrom_succ]
      omega
    by_cases hjn : j = n
    · rw [hjn]; exact hstep
    · exact Nat.lt_trans (ih j (by omega)) hstep

/-! ## Lemmas on `DecodeBody` -/

/-- Twenty actions always fill a layout, slot by slot in array order. -/
theorem Layout.ofList_of_length (acts : List Action) (h : acts.length = 20) :
    ∃ L, Layout.ofList acts = some L ∧ L.toList = acts := by
  rcases acts with _ | ⟨a0, acts⟩
  · simp at h
  rcases acts with _ | ⟨a1, acts⟩
  · simp at h
  rcases acts with _ | ⟨a2, acts⟩
  · simp at h
  rcases acts with _ | ⟨a3, acts⟩
  · simp at h
  rcases acts with _ | ⟨a4, acts⟩
  · simp at h
  rcases acts with _ | ⟨a5, acts⟩
  · simp at h
  rcases acts with _ | ⟨a6, acts⟩
  · simp at h
  rcases acts with _ | ⟨a7, acts⟩
  · simp at h
  rcases acts with _ | ⟨a8, acts⟩
  · simp at h
  rcases acts with _ | ⟨a9, acts⟩
  · simp at h
  rcases acts with _ | ⟨a10, acts⟩
  · simp at h
  rcases acts with _ | ⟨a11, acts⟩
  · simp at h
  rcases acts with _ | ⟨a12, acts⟩
  · simp at h
  rcases acts with _ | ⟨a13, acts⟩
  · simp at h
  rcases acts with _ | ⟨a14, acts⟩
  · simp at h
  rcases acts with _ | ⟨a15, acts⟩
  · simp at h
  rcases acts with _ | ⟨a16, acts⟩
  · simp at h
  rcases acts with _ | ⟨a17, acts⟩
  · simp at h
  rcases acts with _ | ⟨a18, acts⟩
  · simp at h
  rcases acts with _ | ⟨a19, acts⟩
  · simp at h
  rcases acts with _ | ⟨a20, acts⟩
  · exact ⟨_, rfl, rfl⟩
  · simp at h

theorem bodyCursor_ok (s : Store) (addr : Nat) : CursorOK s (bodyCursor s addr) :=
  ⟨by simp [bodyCursor], by simp [bodyCursor], by simp [bodyCursor], by simp [bodyCursor]⟩

theorem bodyCursor_pos (s : Store) (addr : Nat) : (bodyCursor s addr).pos = 8 * addr := by
  simp only [Cursor.pos, bodyCursor]
  omega

/-- One pass of the loop of `DecodeBody`: the action is tagged by comparing
the five-bit id with the threshold, and the cursor moves past the field. -/
theorem decodeAction_spec (E : ProfileEnums) (oob : Nat → Nat) (s : Store) (c : Cursor)
    (hc : CursorOK s c) :
    ∃ a, decodeAction E oob s c = some (a, cursorAt s (c.pos + fieldWidth E s c.pos)) ∧
      SlotDecoded E s c.pos a := by
  unfold decodeAction
  rw [FetchData_value oob s kLenActionID c hc (by decide)]
  simp only [kLenActionID]
  by_cases hid : streamValue s c.pos 5 ≥ kMinAnalogActionID E
  · obtain ⟨v, hv⟩ := FetchData_cursor oob s kLenAnalogActionValue (cursorAt s (c.pos + 5))
      (cursorAt_ok s _)
    rw [pos_cursorAt] at hv
    simp only [kLenAnalogActionValue, Nat.add_assoc, Nat.reduceAdd] at hv
    simp only [hid, if_true, hv, fieldWidth, kLenAnalogActionValue]
    refine ⟨Action.analog (streamValue s c.pos 5) v, rfl, ?_, ?_⟩
    · intro _
      exact ⟨v, rfl⟩
    · intro h
      omega
  · simp only [hid, if_false, fieldWidth]
    refine ⟨Action.digital (streamValue s c.pos 5), rfl, ?_, ?_⟩
    · intro h
      exact absurd h hid
    · intro _
      rfl

/-- The first `n` passes of the loop of `DecodeBody`. -/
theorem decodeActions_spec (E : ProfileEnums) (oob : Nat → Nat) (s : Store) :
    ∀ (n : Nat) (c : Cursor), CursorOK s c →
      ∃ acts, decodeActions E oob s n c = some (acts, cursorAt s (slotStart E s c.pos n)) ∧
        acts.length = n ∧
        ∀ i, i < n → ∃ a, acts[i]? = some a ∧ SlotDecoded E s (slotStart E s c.pos i) a := by
  intro n
  induction n with
  | zero =>
    intro c hc
    exact ⟨[], by simp [decodeActions, slotStart, cursorAt_pos s c hc], rfl,
      fun i hi => absurd hi (Nat.not_lt_zero i)⟩
  | succ n ih =>
    intro c hc
    obtain ⟨a, ha, hslot⟩ := decodeAction_spec E oob s c hc
    obtain ⟨rest, hrest, hlen, hall⟩ := ih (cursorAt s (c.pos + fieldWidth E s c.pos))
      (cursorAt_ok s _)
    rw [pos_cursorAt] at hrest hall
    refine ⟨a :: rest, ?_, by simp [hlen], ?_⟩
    · simp only [decodeActions, ha, hrest, slotStart]
    · intro i hi
      cases i with
      | zero => exact ⟨a, by simp, by simpa [slotStart] using hslot⟩
      | succ i =>
        obtain ⟨b, hb, hbs⟩ := hall i (by omega)
        exact ⟨b, by simpa using hb, by simpa [slotStart] using hbs⟩

/-- `DecodeBody` returns a layout for every store and address, and slot `i`
of it is the action decoded from the field of slot `i`. -/
theorem DecodeBody_spec (E : ProfileEnums) (oob : Nat → Nat) (s : Store) (addr : Nat) :
    ∃ L, DecodeBody E oob s addr = some L ∧
      ∀ i, i < 20 → ∃ a, L.toList[i]? = some a ∧
        SlotDecoded E s (slotStart E s (8 * addr) i) a := by
  obtain ⟨acts, hacts, hlen, hall⟩ := decodeActions_spec E oob s 20 (bodyCursor s addr)
    (bodyCursor_ok s addr)
  obtain ⟨L, hL, hto⟩ := Layout.ofList_of_length acts hlen
  rw [bodyCursor_pos] at hall
  refine ⟨L, ?_, ?_⟩
  · unfold DecodeBody
    rw [hacts]
    exact hL
  · rw [hto]
    exact hall

/-- The value of a run of stream bits depends only on the bytes the run
touches. -/
theorem streamValue_congr (s s1 : Store) (pos n : Nat)
    (h : ∀ k, k < n → EEPROMread s1 ((pos + k) / 8) = EEPROMread s ((pos + k) / 8)) :
    streamValue s1 pos n = streamValue s pos n := by
  induction n with
  | zero => rfl
  | succ n ih =>
    rw [streamValue, streamValue, ih (fun k hk => h k (by omega)), streamBit, streamBit,
      h n (by omega)]

/-- A pass of the loop of `DecodeBody` over a field below the threshold. -/
theorem decodeAction_digital (E : ProfileEnums) (oob : Nat → Nat) (s : Store) (c : Cursor)
    (hc : CursorOK s c) (hid : streamValue s c.pos 5 < kMinAnalogActionID E) :
    decodeAction E oob s c =
      some (Action.digital (streamValue s c.pos 5), cursorAt s (c.pos + 5)) := by
  unfold decodeAction
  rw [FetchData_value oob s kLenActionID c hc (by decide)]
  simp only [kLenActionID]
  rw [if_neg (by omega)]

/-- The first `n` passes of the loop of `DecodeBody` over fields that are all
below the threshold. -/
theorem decodeActions_digital (E : ProfileEnums) (oob : Nat → Nat) (s : Store) :
    ∀ (n : Nat) (c : Cursor), CursorOK s c →
      (∀ i, i < n → streamValue s (c.pos + 5 * i) 5 < kMinAnalogActionID E) →
      decodeActions E oob s n c =
        some ((List.range n).map (fun i => Action.digital (streamValue s (c.pos + 5 * i) 5)),
          cursorAt s (c.pos + 5 * n)) := by
  intro n
  induction n with
  | zero =>
    intro c hc _
    simp [decodeActions, cursorAt_pos s c hc]
  | succ n ih =>
    intro c hc hdig
    have h0 := hdig 0 (by omega)
    rw [Nat.mul_zero, Nat.add_zero] at h0
    have hrest := ih (cursorAt s (c.pos + 5)) (cursorAt_ok s _) (by
      intro i hi
      rw [pos_cursorAt]
      have := hdig (i + 1) (by omega)
      rw [Nat.mul_add, Nat.mul_one, Nat.add_comm (5 * i) 5, ← Nat.add_assoc] at this
      exact this)
    rw [pos_cursorAt] at hrest
    rw [decodeActions, decodeAction_digital E oob s c hc h0]
    simp only [hrest]
    have e1 : (List.range n).map
        ((fun i => Action.digital (streamValue s (c.pos + 5 * i) 5)) ∘ Nat.succ) =
        (List.range n).map (fun i => Action.digital (streamValue s (c.pos + 5 + 5 * i) 5)) :=
      List.map_congr_left (fun i _ => by
        simp only [Function.comp]
        rw [show c.pos + 5 * i.succ = c.pos + 5 + 5 * i by omega])
    have e2 : c.pos + 5 * (n + 1) = c.pos + 5 + 5 * n := by omega
    rw [List.range_succ_eq_map, List.map_cons, List.map_map, e1, e2]
    simp only [Nat.mul_zero, Nat.add_zero]

/-- `DecodeBody` over a body whose 20 five-bit fields are all below the
threshold. -/
theorem DecodeBody_digital (E : ProfileEnums) (oob : Nat → Nat) (s : Store) (addr : Nat)
    (hdig : ∀ i, i < 20 → streamValue s (8 * addr + 5 * i) 5 < kMinAnalogActionID E) :
    DecodeBody E oob s addr = some (digitalLayoutAt s addr) := by
  have h := decodeActions_digital E oob s 20 (bodyCursor s addr) (bodyCursor_ok s addr)
    (by rw [bodyCursor_pos]; exact hdig)
  rw [bodyCursor_pos] at h
  have hrange : List.range 20 =
      [0, 1, 2, 3, 4, 5, 6, 7, 8, 9, 10, 11, 12, 13, 14, 15, 16, 17, 18, 19] := by decide
  unfold DecodeBody
  rw [h, hrange]
  simp only [List.map_cons, List.map_nil, Layout.ofList, digitalLayoutAt]

/-! ## Lemmas on the mask indices -/

theorem maskIndexLoop_zero (fuel u : Nat) : maskIndexLoop fuel 0 u = [] := by
  cases fuel <;> simp [maskIndexLoop]

theorem maskIndexLoop_within (fuel r u : Nat) (hr : 0 < r) (hu : r ≤ u) :
    maskIndexLoop (fuel + 1) r u = [r - 1] := by
  have h1 : ¬ u < r := by omega
  rw [maskIndexLoop]
  simp only [gt_iff_lt, hr, if_true, h1, if_false, Nat.sub_self, maskIndexLoop_zero]
  split <;> rfl

theorem maskIndexLoop_cross (fuel r u : Nat) (hu : u < r) :
    maskIndexLoop (fuel + 1) r u = (r - 1) :: maskIndexLoop fuel (r - u) 8 := by
  have hr : 0 < r := by omega
  rw [maskIndexLoop]
  simp only [gt_iff_lt, hr, if_true, hu, Nat.sub_self]

theorem maskIndexLoop_lt :
    ∀ (fuel r u i : Nat), i ∈ maskIndexLoop fuel r u → i < r := by
  intro fuel
  induction fuel with
  | zero => intro r u i h; simp [maskIndexLoop] at h
  | succ fuel ih =>
    intro r u i h
    rcases Nat.eq_zero_or_pos r with h0 | hr
    · subst h0
      simp [maskIndexLoop_zero] at h
    · by_cases hu : r ≤ u
      · rw [maskIndexLoop_within fuel r u hr hu, List.mem_singleton] at h
        omega
      · rw [maskIndexLoop_cross fuel r u (by omega), List.mem_cons] at h
        rcases h with rfl | h
        · omega
        · have := ih _ _ _ h
          omega

/-- The loop of `FetchData` reads `kMasks` at the indices of `maskIndexLoop`
only: two mask memories that agree there give the same result. -/
theorem FetchDataLoop_congr_oob (oob oob1 : Nat → Nat) (s : Store) :
    ∀ (fuel r d : Nat) (c : Cursor),
      (∀ i ∈ maskIndexLoop fuel r c.unread, kMasksAt oob1 i = kMasksAt oob i) →
      FetchDataLoop oob1 s fuel r d c = FetchDataLoop oob s fuel r d c := by
  intro fuel
  induction fuel with
  | zero => intro r d c _; rfl
  | succ fuel ih =>
    intro r d c h
    rcases Nat.eq_zero_or_pos r with h0 | hr
    · subst h0
      rw [FetchDataLoop_zero, FetchDataLoop_zero]
    · by_cases hu : r ≤ c.unread
      · rw [maskIndexLoop_within fuel r c.unread hr hu] at h
        rw [FetchDataLoop_within oob1 s fuel r d c hr hu,
          FetchDataLoop_within oob s fuel r d c hr hu, h (r - 1) (List.mem_singleton_self _)]
      · have hu1 : c.unread < r := by omega
        rw [maskIndexLoop_cross fuel r c.unread hu1] at h
        rw [FetchDataLoop_cross oob1 s fuel r d c hu1, FetchDataLoop_cross oob s fuel r d c hu1,
          h (r - 1) (List.mem_cons_self _ _)]
        exact ih _ _ _ (fun i hi => h i (List.mem_cons_of_mem _ hi))

theorem kMasksAt_table (oob oob1 : Nat → Nat) (i : Nat) (h : i < 8) :
    kMasksAt oob1 i = kMasksAt oob i := by
  interval_cases i <;> rfl

/-! ## Claims -/

set_option maxRecDepth 100000 in
/-- C1, failing inputs. (a) One record serving platform 1 at position 5 and
platform 2 at position 10 with an all-digital layout: `Decode(1, 5)` returns
the layout, but `Decode(2, 10)` ends in `exit(1)`, because the second config
of the shared position byte `0x5A` is given the whole byte, 90, as position.
(b) One record whose first slot is Analog with id 31 and value 960:
with zeros past the mask table, `Decode` returns a layout whose first slot has
value 64, not the encoded layout. -/
theorem C1_round_trip_fails :
    ((∀ c ∈ [(⟨1, 5⟩ : PlatformConfig), ⟨2, 10⟩], exampleEnums.Platform_MIN ≤ c.platform ∧
        c.platform ≤ exampleEnums.Platform_MAX ∧ c.position < 16) ∧
      (encodeHeader exampleEnums [⟨1, 5⟩, ⟨2, 10⟩]).bytes = [0xC0, 0x5A] ∧
      encodedLen sharedByteStore = 15 ∧
      Decode exampleEnums oobZero sharedByteStore 1 5 =
        some (Outcome.returned digitalLayout) ∧
      DecodeHeader exampleEnums sharedByteStore 18 = [⟨1, 5⟩, ⟨2, 90⟩] ∧
      Decode exampleEnums oobZero sharedByteStore 2 10 = some (Outcome.exited 1)) ∧
    (encodedLen analogStore = 16 ∧
      Decode exampleEnums oobZero analogStore 1 0 =
        some (Outcome.returned { digitalLayout with thumb_top := Action.analog 31 64 }) ∧
      Decode exampleEnums oobZero analogStore 1 0 ≠ some (Outcome.returned analogLayout)) := by
  decide

/-- C2, failing input. A 10-bit fetch from the cursor with three unread bits
of `0xAB`, the next byte being `0xCD`: the next ten stream bits are 486, but
the first pass of the loop masks with `kMasks[9]`, past the end of the
eight-entry table, so the value returned depends on what lies there; with
zeros there it is 102. -/
theorem C2_fetch_ten_bits :
    CursorOK fetchStore ⟨1, 0xAB, 3⟩ ∧
      streamValue fetchStore (Cursor.pos ⟨1, 0xAB, 3⟩) 10 = 486 ∧
      (∀ oob, FetchData oob fetchStore 10 ⟨1, 0xAB, 3⟩ =
        some (((0xAB <<< 7) &&& oob 9) ||| 102, ⟨2, 0xCD, 1⟩)) ∧
      FetchData oobZero fetchStore 10 ⟨1, 0xAB, 3⟩ = some (102, ⟨2, 0xCD, 1⟩) := by
  refine ⟨by decide, by decide, ?_, by decide⟩
  intro oob
  simp [FetchData, FetchDataLoop, kMasksAt, kMasks, fetchStore, storeOfList, EEPROMread]
  rfl

/-- C3, failing input. From the start of the bytes `0xAB 0xCD`, with zeros
past the mask table: a 5-bit fetch gives 21 and the 10-bit fetch after it
gives 102, a single 15-bit fetch gives 102, and `21 * 2 ^ 10 + 102` is not
102. Both ways leave the same cursor. The fifteen stream bits are 21990. -/
theorem C3_split_fetch_disagrees :
    CursorOK fetchStore ⟨1, 0xAB, 8⟩ ∧
      FetchData oobZero fetchStore 5 ⟨1, 0xAB, 8⟩ = some (21, ⟨1, 0xAB, 3⟩) ∧
      FetchData oobZero fetchStore 10 ⟨1, 0xAB, 3⟩ = some (102, ⟨2, 0xCD, 1⟩) ∧
      FetchData oobZero fetchStore 15 ⟨1, 0xAB, 8⟩ = some (102, ⟨2, 0xCD, 1⟩) ∧
      21 * 2 ^ 10 + 102 ≠ 102 ∧
      streamValue fetchStore (Cursor.pos ⟨1, 0xAB, 8⟩) 15 = 21990 := by
  decide

/-- C4, failing input. For the header with two platforms and position byte
`0x5A`, `DecodeHeader` returns positions 5 and 90, not 5 and 10. In general
the config at an odd index gets the whole position byte, because the mask is
`0xFF`. -/
theorem C4_odd_index_gets_whole_byte :
    DecodeHeader exampleEnums headerStore5A 0 = [⟨1, 5⟩, ⟨2, 90⟩] ∧
      ∀ (E : ProfileEnums) (s : Store) (addr k : Nat) (c : PlatformConfig),
        (DecodeHeader E s addr)[k]? = some c → k % 2 = 1 →
          c.position = EEPROMread s (addr + 1 + k / 2) := by
  refine ⟨by decide, ?_⟩
  intro E s addr k c hc hk
  rw [DecodeHeader_eq] at hc
  have h := (configsFrom_getElem s (addr + 1) _ 0 k c hc).2
  rw [h, Nat.zero_add, decodedPosition, if_neg (by omega), and_255]
  exact Nat.mod_eq_of_lt (EEPROMread_lt s _)

/-- C5. Header scan: `DecodeHeader` returns one config for each platform of
the closed enum range whose bit `8 - p` is set in the bitmap byte and no
other, in strictly ascending platform order; the header length `Decode`
skips, `size / 2 + size % 2 + 1`, is `⌈count / 2⌉ + 1`, which is also the
number of distinct addresses `DecodeHeader` read; for the bitmap with
platforms 2, 5 and 7 set there are three entries, in that order, and the
header length is 3. -/
theorem C5_header_scan (E : ProfileEnums) (s : Store) (addr : Nat)
    (hmax : E.Platform_MAX ≤ 8) :
    (DecodeHeader E s addr).map (fun c => c.platform) =
        (platformRange E).filter (fun p => (EEPROMread s addr).testBit (8 - p)) ∧
      (∀ p, ((DecodeHeader E s addr).map (fun c => c.platform)).count p =
        if E.Platform_MIN ≤ p ∧ p ≤ E.Platform_MAX ∧ (EEPROMread s addr).testBit (8 - p) = true
        then 1 else 0) ∧
      ((DecodeHeader E s addr).map (fun c => c.platform)).Pairwise (fun a b => a < b) ∧
      headerLen (DecodeHeader E s addr) = ((DecodeHeader E s addr).length + 1) / 2 + 1 ∧
      (DecodeHeaderReads E s addr).toFinset =
        Finset.Icc addr (addr + ((DecodeHeader E s addr).length + 1) / 2) ∧
      (DecodeHeaderReads E s addr).toFinset.card = headerLen (DecodeHeader E s addr) ∧
      (EEPROMread s addr = 0b01001010 → E.Platform_MIN ≤ 2 → 7 ≤ E.Platform_MAX →
        (DecodeHeader E s addr).map (fun c => c.platform) = [2, 5, 7] ∧
          headerLen (DecodeHeader E s addr) = 3) := by
  have hmap : (DecodeHeader E s addr).map (fun c => c.platform) =
      presentPlatforms E (EEPROMread s addr) := by
    rw [DecodeHeader_eq, configsFrom_platforms]
  have hsorted := presentPlatforms_sorted E (EEPROMread s addr)
  have hreads : DecodeHeaderReads E s addr =
      addr :: readsFrom (addr + 1) 0 (DecodeHeader E s addr).length := by
    rw [DecodeHeader_length]
    unfold DecodeHeaderReads
    rw [DecodeHeaderRun_eq]
  have hfin := reads_toFinset addr (DecodeHeader E s addr).length
  refine ⟨hmap, ?_, ?_, headerLen_eq _, ?_, ?_, ?_⟩
  · intro p
    rw [hmap]
    have hnodup : (presentPlatforms E (EEPROMread s addr)).Nodup :=
      hsorted.imp (fun h => Nat.ne_of_lt h)
    rw [List.count_eq_of_nodup hnodup]
    simp only [mem_presentPlatforms]
  · rw [hmap]
    exact hsorted
  · rw [hreads, hfin]
  · rw [hreads, hfin, Nat.card_Icc, headerLen_eq]
    omega
  · intro hbm hmin hmax7
    have h257 : (DecodeHeader E s addr).map (fun c => c.platform) = [2, 5, 7] := by
      rw [hmap]
      apply List.eq_of_perm_of_sorted (r := fun a b => a < b) _ hsorted (by decide)
      rw [List.perm_ext_iff_of_nodup (hsorted.imp (fun h => Nat.ne_of_lt h)) (by decide)]
      intro p
      rw [mem_presentPlatforms, hbm]
      constructor
      · rintro ⟨_, h2, h3⟩
        have hp : p ≤ 8 := by omega
        interval_cases p <;> first | exact absurd h3 (by decide) | simp
      · intro hp
        simp only [List.mem_cons, List.mem_singleton, List.not_mem_nil, or_false] at hp
        rcases hp with rfl | rfl | rfl <;> exact ⟨by omega, by omega, by decide⟩
    refine ⟨h257, ?_⟩
    have hl : (DecodeHeader E s addr).length = 3 := by
      have := congrArg List.length h257
      simpa using this
    rw [headerLen_eq, hl]

/-- Witness for C5: the header `0x4A 0x12 0x30` at address 18 under the
example enum values. -/
theorem C5_header_scan_witness :
    exampleEnums.Platform_MAX ≤ 8 ∧
      (DecodeHeader exampleEnums headerStore257 18).map (fun c => c.platform) = [2, 5, 7] ∧
      headerLen (DecodeHeader exampleEnums headerStore257 18) = 3 ∧
      (DecodeHeaderReads exampleEnums headerStore257 18).toFinset.card = 3 := by
  have h := C5_header_scan exampleEnums headerStore257 18 (by decide)
  have h3 := h.2.2.2.2.2.2 (by decide) (by decide) (by decide)
  exact ⟨by decide, h3.1, h3.2, by rw [h.2.2.2.2.2.1, h3.2]⟩

set_option maxRecDepth 100000 in
/-- C6, counterexample. With length bytes saying 1, the header at address 18
is below `18 + length` and yet is not examined; with length bytes saying 3, a
header at 18 matches the request and its body starts at 20, below
`18 + length`, and yet `Decode` ends in `exit(1)`: `max_addr` is
`17 + length`, not `16 + 2 + length`. -/
theorem C6_scan_bound_counterexample :
    (encodedLen lengthOneStore = 1 ∧ 18 < 18 + encodedLen lengthOneStore ∧
      scan exampleEnums lengthOneStore 1 0 = some (18, [])) ∧
    (encodedLen lengthThreeStore = 3 ∧ maxAddr lengthThreeStore ≠ 16 + 2 + 3 ∧
      matchesRequest (DecodeHeader exampleEnums lengthThreeStore 18) 1 0 = true ∧
      18 + headerLen (DecodeHeader exampleEnums lengthThreeStore 18) = 20 ∧
      20 < 18 + encodedLen lengthThreeStore ∧
      Decode exampleEnums oobZero lengthThreeStore 1 0 = some (Outcome.exited 1)) := by
  decide

/-- C6, amended. `Decode` reads the length as `store[16] * 256 + store[17]`
and uses `max_addr = 16 + 1 + length`. The scan ends for every store; every
header it examines is at an address below `17 + length`, the header at 18 is
examined exactly when `18 < 17 + length`, and the scan stops only on a
matching header or at an address that is not below `17 + length`. The body at
the final address `b` is decoded and returned exactly when `b < 17 + length`,
and otherwise `Decode` ends in `exit(1)`. -/
theorem C6_scan_bound_amended (E : ProfileEnums) (oob : Nat → Nat) (s : Store) (p q : Nat)
    (_hmax : E.Platform_MAX ≤ 8) :
    encodedLen s = EEPROMread s 16 * 256 + EEPROMread s 17 ∧
      maxAddr s = 17 + encodedLen s ∧
      ∃ b seen, scan E s p q = some (b, seen) ∧
        (∀ a ∈ seen, a < 17 + encodedLen s) ∧
        (18 ∈ seen ↔ 18 < 17 + encodedLen s) ∧
        (17 + encodedLen s ≤ b ∨ ∃ a init, seen = init ++ [a] ∧
          matchesRequest (DecodeHeader E s a) p q = true ∧
          b = a + headerLen (DecodeHeader E s a)) ∧
        (b < 17 + encodedLen s → ∃ L, DecodeBody E oob s b = some L ∧
          Decode E oob s p q = some (Outcome.returned L)) ∧
        (17 + encodedLen s ≤ b → Decode E oob s p q = some (Outcome.exited 1)) := by
  have hM : maxAddr s = 17 + encodedLen s := by
    unfold maxAddr kMinAddr
    omega
  obtain ⟨b, seen, hrun, hbelow, hfirst, hstop⟩ :=
    scanLoop_inv E s p q (maxAddr s) (maxAddr s) (kMinAddr + 2) [] (by omega)
  rw [List.nil_append] at hrun
  have hscan : scan E s p q = some (b, seen) := hrun
  rw [hM] at hbelow hfirst hstop
  refine ⟨encodedLen_eq s, hM, b, seen, hscan, hbelow, ⟨fun h => hbelow 18 h, hfirst⟩, hstop,
    ?_, ?_⟩
  · intro hb
    obtain ⟨L, hL, _⟩ := DecodeBody_spec E oob s b
    refine ⟨L, hL, ?_⟩
    unfold Decode
    rw [hscan]
    simp only [hM, hL]
    rw [if_neg (by omega)]
  · intro hb
    unfold Decode
    rw [hscan]
    simp only [hM]
    rw [if_pos (by omega)]

set_option maxRecDepth 100000 in
/-- Witness for C6, amended: with length bytes saying 3 and a matching header
at 18, `max_addr` is 20, the header at 18 is examined, the scan stops at the
body address 20, and `Decode` ends in `exit(1)`. -/
theorem C6_scan_bound_amended_witness :
    exampleEnums.Platform_MAX ≤ 8 ∧
      maxAddr lengthThreeStore = 17 + encodedLen lengthThreeStore ∧
      scan exampleEnums lengthThreeStore 1 0 = some (20, [18]) ∧
      (17 + encodedLen lengthThreeStore ≤ 20 →
        Decode exampleEnums oobZero lengthThreeStore 1 0 = some (Outcome.exited 1)) := by
  obtain ⟨_, hM, b, seen, hscan, _, _, _, _, hexit⟩ :=
    C6_scan_bound_amended exampleEnums oobZero lengthThreeStore 1 0 (by decide)
  have hs : scan exampleEnums lengthThreeStore 1 0 = some (20, [18]) := by decide
  rw [hs] at hscan
  simp only [Option.some.injEq, Prod.mk.injEq] at hscan
  obtain ⟨hb, _⟩ := hscan
  subst hb
  exact ⟨by decide, hM, hs, hexit⟩

/-- C7. Not found: when the store holds, from address 18 on, records that are
each a well-formed header followed by exactly 13 body bytes, the length bytes
at 16 and 17 give the total number of record bytes, and the requested
(platform, position) with position in 0..15 is an entry of no header, then
`Decode` ends in `exit(1)` and returns no layout; the scan has examined every
record and its address has reached the end of the records, at or past
`max_addr`. -/
theorem C7_not_found (E : ProfileEnums) (oob : Nat → Nat) (s : Store) (hs : List Header)
    (p q : Nat) (_hmax : E.Platform_MAX ≤ 8)
    (hwf : ∀ h ∈ hs, Header.WF E h) (hrec : RecordsAt s 18 hs)
    (h16 : EEPROMread s 16 = recordsLen hs / 256)
    (h17 : EEPROMread s 17 = recordsLen hs % 256)
    (hq : q < 16) (habs : ∀ h ∈ hs, (⟨p, q⟩ : PlatformConfig) ∉ h.entries E) :
    Decode E oob s p q = some (Outcome.exited 1) ∧
      scan E s p q = some (18 + recordsLen hs, recordStarts 18 hs) ∧
      maxAddr s ≤ 18 + recordsLen hs ∧
      ∀ layout, Decode E oob s p q ≠ some (Outcome.returned layout) := by
  have hlen : encodedLen s = recordsLen hs := by
    rw [encodedLen_eq, h16, h17]
    omega
  have hM : maxAddr s = 17 + recordsLen hs := by
    unfold maxAddr kMinAddr
    omega
  have hge := recordsLen_ge hs
  have hscan : scan E s p q = some (18 + recordsLen hs, recordStarts 18 hs) := by
    unfold scan kMinAddr
    rw [hM, scanLoop_no_match E s p q (17 + recordsLen hs) hq hs 18 _ [] hrec hwf habs
      (by omega) (by omega)]
    simp
    omega
  have hdec : Decode E oob s p q = some (Outcome.exited 1) := by
    unfold Decode
    rw [hscan]
    simp only [hM]
    rw [if_pos (by omega)]
  refine ⟨hdec, hscan, by omega, ?_⟩
  intro layout hl
  rw [hdec] at hl
  cases hl

/-- Witness for C7: the two-record store and the request for platform 3 at
position 1, which no header serves (platform 3 is at position 2). -/
theorem C7_not_found_witness :
    exampleEnums.Platform_MAX ≤ 8 ∧
      (∀ h ∈ twoRecordHeaders, Header.WF exampleEnums h) ∧
      RecordsAt twoRecordStore 18 twoRecordHeaders ∧
      EEPROMread twoRecordStore 16 = recordsLen twoRecordHeaders / 256 ∧
      EEPROMread twoRecordStore 17 = recordsLen twoRecordHeaders % 256 ∧
      (∀ h ∈ twoRecordHeaders, (⟨3, 1⟩ : PlatformConfig) ∉ h.entries exampleEnums) ∧
      Decode exampleEnums oobZero twoRecordStore 3 1 = some (Outcome.exited 1) ∧
      scan exampleEnums twoRecordStore 3 1 = some (48, [18, 33]) :=
  have h := C7_not_found exampleEnums oobZero twoRecordStore twoRecordHeaders 3 1
    (by decide) (by decide) (by decide) (by decide) (by decide) (by decide) (by decide)
  ⟨by decide, by decide, by decide, by decide, by decide, by decide, h.1, h.2.1⟩

set_option maxRecDepth 100000 in
/-- C9, failing input. The body at address 20 starts with the id 31, an
analog id, followed by the ten bits of 960. With zeros past the mask table
`DecodeBody` gives the first slot the value 64; with all-ones words there it
gives 32704, which is not in 0..1023. -/
theorem C9_analog_value_wrong :
    streamValue analogStore (8 * 20) 5 = 31 ∧
      kMinAnalogActionID exampleEnums ≤ 31 ∧
      streamValue analogStore (8 * 20 + 5) 10 = 960 ∧
      (DecodeBody exampleEnums oobZero analogStore 20).map (fun L => L.thumb_top) =
        some (Action.analog 31 64) ∧
      (DecodeBody exampleEnums oobOnes analogStore 20).map (fun L => L.thumb_top) =
        some (Action.analog 31 32704) := by
  decide

set_option maxRecDepth 100000 in
/-- C10, failing input. Two records, the first with an analog action in its
body, which therefore takes 14 bytes: the second record's bitmap byte is at
address 34, but after the first header fails to match, `Decode` moves to
`18 + 2 + 13 = 33`, the last body byte of the first record, reads it as a
bitmap byte, and the request for the second record ends in `exit(1)`. -/
theorem C10_fixed_skip_misses_header :
    (encodeRecord exampleEnums [⟨1, 0⟩] analogLayout).length = 16 ∧
      (encodeBody analogLayout).length = 14 ∧
      EEPROMread analogFirstStore (18 + 16) = (encodeHeader exampleEnums [⟨2, 0⟩]).bitmap ∧
      matchesRequest (DecodeHeader exampleEnums analogFirstStore 18) 2 0 = false ∧
      18 + headerLen (DecodeHeader exampleEnums analogFirstStore 18) + 13 = 33 ∧
      scan exampleEnums analogFirstStore 2 0 = some (49, [18, 33]) ∧
      Decode exampleEnums oobZero analogFirstStore 2 0 = some (Outcome.exited 1) := by
  decide

/-- C11. Empty header: when the byte at `addr` is 0, `DecodeHeader(addr)`
returns the empty list and reads the bitmap byte only, no position byte; the
header length `Decode` computes is 1, no request matches, and a pass of the
loop of `Decode` over this header goes on at `addr + 1 + 13`. -/
theorem C11_empty_header (E : ProfileEnums) (s : Store) (addr : Nat)
    (_hmax : E.Platform_MAX ≤ 8) (h0 : EEPROMread s addr = 0) :
    DecodeHeader E s addr = [] ∧
      DecodeHeaderReads E s addr = [addr] ∧
      headerLen (DecodeHeader E s addr) = 1 ∧
      (∀ p q, matchesRequest (DecodeHeader E s addr) p q = false) ∧
      ∀ (p q M fuel : Nat) (seen : List Nat), addr < M →
        scanLoop E s p q M (fuel + 1) addr seen =
          scanLoop E s p q M fuel (addr + 1 + 13) (seen ++ [addr]) := by
  have hnil : DecodeHeader E s addr = [] := by
    rw [DecodeHeader_eq, h0, presentPlatforms_zero]
    rfl
  have hreads : DecodeHeaderReads E s addr = [addr] := by
    unfold DecodeHeaderReads
    rw [DecodeHeaderRun_eq, h0, presentPlatforms_zero]
    rfl
  refine ⟨hnil, hreads, by rw [hnil]; rfl, fun p q => by rw [hnil]; rfl, ?_⟩
  intro p q M fuel seen hlt
  rw [scanLoop]
  simp only [hlt, if_true, hnil]
  rfl

/-- Witness for C11: the all-zero store at address 18. -/
theorem C11_empty_header_witness :
    exampleEnums.Platform_MAX ≤ 8 ∧ EEPROMread zeroStore 18 = 0 ∧
      DecodeHeader exampleEnums zeroStore 18 = [] ∧
      DecodeHeaderReads exampleEnums zeroStore 18 = [18] ∧
      headerLen (DecodeHeader exampleEnums zeroStore 18) = 1 :=
  have h := C11_empty_header exampleEnums zeroStore 18 (by decide) (by decide)
  ⟨by decide, by decide, h.1, h.2.1, h.2.2.1⟩

/-- C12. First match wins: when `Decode` returns a layout, there is a header
number `n` on the path of the scan (start 18, step header length + 13) whose
`DecodeHeader` list holds a config `c` with `c.platform` the requested
platform and `c.position` the requested position; no list of a header before
it on the path holds such a config; the headers before it are at lower
addresses; the scan examined the headers 0 to `n` of the path and no other;
and the layout is `DecodeBody` of the address just past header `n`, which is
below `max_addr`. -/
theorem C12_first_match_wins (E : ProfileEnums) (oob : Nat → Nat) (s : Store) (p q : Nat)
    (L : Layout) (_hmax : E.Platform_MAX ≤ 8)
    (h : Decode E oob s p q = some (Outcome.returned L)) :
    ∃ n, (∃ c ∈ DecodeHeader E s (chainFrom E s 18 n), c.platform = p ∧ c.position = q) ∧
      (∀ j, j < n → ∀ c ∈ DecodeHeader E s (chainFrom E s 18 j),
        ¬ (c.platform = p ∧ c.position = q)) ∧
      (∀ j, j < n → chainFrom E s 18 j < chainFrom E s 18 n) ∧
      matchesRequest (DecodeHeader E s (chainFrom E s 18 n)) p q = true ∧
      (∀ j, j < n → matchesRequest (DecodeHeader E s (chainFrom E s 18 j)) p q = false) ∧
      scan E s p q =
        some (chainFrom E s 18 n + headerLen (DecodeHeader E s (chainFrom E s 18 n)),
          (List.range (n + 1)).map (chainFrom E s 18)) ∧
      chainFrom E s 18 n + headerLen (DecodeHeader E s (chainFrom E s 18 n)) < maxAddr s ∧
      DecodeBody E oob s
        (chainFrom E s 18 n + headerLen (DecodeHeader E s (chainFrom E s 18 n))) = some L := by
  obtain ⟨n, hbefore, hstop⟩ :=
    scanLoop_chain E s p q (maxAddr s) (maxAddr s) (kMinAddr + 2) [] (by omega)
  have h18 : kMinAddr + 2 = 18 := rfl
  rw [h18, List.nil_append, List.nil_append] at hstop
  rw [h18] at hbefore
  rcases hstop with ⟨_, hmatch, hrun⟩ | ⟨hge, hrun⟩
  · have hscan : scan E s p q =
        some (chainFrom E s 18 n + headerLen (DecodeHeader E s (chainFrom E s 18 n)),
          (List.range (n + 1)).map (chainFrom E s 18)) := hrun
    unfold Decode at h
    rw [hscan] at h
    simp only at h
    by_cases hb : chainFrom E s 18 n + headerLen (DecodeHeader E s (chainFrom E s 18 n)) ≥
        maxAddr s
    · rw [if_pos hb] at h
      cases h
    · rw [if_neg hb] at h
      refine ⟨n, (matchesRequest_iff _ p q).1 hmatch,
        fun j hj => (matchesRequest_false_iff _ p q).1 (hbefore j hj).2,
        fun j hj => chainFrom_lt E s 18 n j hj, hmatch, fun j hj => (hbefore j hj).2, hscan,
        by omega, ?_⟩
      split at h
      · cases h
      · next layout hbody =>
        simp only [Option.some.injEq, Outcome.returned.injEq] at h
        rw [hbody, h]
  · have hscan : scan E s p q =
        some (chainFrom E s 18 n, (List.range n).map (chainFrom E s 18)) := hrun
    unfold Decode at h
    rw [hscan] at h
    simp only at h
    rw [if_pos hge] at h
    cases h

set_option maxRecDepth 100000 in
/-- Witness for C12: in the store of two records with different bodies, the
request for platform 2 at position 1 is served by the second record only: the
scan examines the headers at 18 and 33, the header at 18 lists (1, 3) alone,
the header at 33 lists (2, 1), and the layout returned is the second
record's, not the first's. A request for platform 2 at position 77, which no
header lists, ends in `exit(1)`. -/
theorem C12_first_match_wins_witness :
    exampleEnums.Platform_MAX ≤ 8 ∧
      Decode exampleEnums oobZero twoLayoutStore 2 1 = some (Outcome.returned reversedLayout) ∧
      reversedLayout ≠ digitalLayout ∧
      DecodeBody exampleEnums oobZero twoLayoutStore 20 = some digitalLayout ∧
      DecodeHeader exampleEnums twoLayoutStore 18 = [⟨1, 3⟩] ∧
      DecodeHeader exampleEnums twoLayoutStore 33 = [⟨2, 1⟩, ⟨3, 18⟩] ∧
      scan exampleEnums twoLayoutStore 2 1 = some (35, [18, 33]) ∧
      Decode exampleEnums oobZero twoLayoutStore 2 77 = some (Outcome.exited 1) ∧
      ∃ n, (∃ c ∈ DecodeHeader exampleEnums twoLayoutStore
            (chainFrom exampleEnums twoLayoutStore 18 n), c.platform = 2 ∧ c.position = 1) ∧
        (∀ j, j < n → ∀ c ∈ DecodeHeader exampleEnums twoLayoutStore
            (chainFrom exampleEnums twoLayoutStore 18 j),
          ¬ (c.platform = 2 ∧ c.position = 1)) ∧
        scan exampleEnums twoLayoutStore 2 1 =
          some (chainFrom exampleEnums twoLayoutStore 18 n +
              headerLen (DecodeHeader exampleEnums twoLayoutStore
                (chainFrom exampleEnums twoLayoutStore 18 n)),
            (List.range (n + 1)).map (chainFrom exampleEnums twoLayoutStore 18)) ∧
        DecodeBody exampleEnums oobZero twoLayoutStore
          (chainFrom exampleEnums twoLayoutStore 18 n +
            headerLen (DecodeHeader exampleEnums twoLayoutStore
              (chainFrom exampleEnums twoLayoutStore 18 n))) =
          some reversedLayout := by
  obtain ⟨n, hmem, hnone, _, _, _, hscan, _, hbody⟩ :=
    C12_first_match_wins exampleEnums oobZero twoLayoutStore 2 1 reversedLayout
      (by decide) (by decide)
  exact ⟨by decide, by decide, by decide, by decide, by decide, by decide, by decide, by decide,
    n, hmem, hnone, hscan, hbody⟩

/-- C13. All-digital body: when each of the 20 consecutive five-bit fields
from bit 0 of the byte at `addr` is below the analog threshold, `DecodeBody`
returns the layout whose slot `i`, in the order `thumb_top`, `thumb_middle`,
..., `right_ring_extra`, is Digital with the id in stream bits `5 i` to
`5 i + 4`: each slot holds exactly one of the 20 decoded actions. Every read
is `EEPROM.read(addr++)`; the cursor starts at `addr + 1` after the first read
and ends at `addr + 13`, so the bytes read are `addr` to `addr + 12`, and a
store that agrees on those 13 bytes decodes to the same layout. -/
theorem C13_all_digital_body (E : ProfileEnums) (oob : Nat → Nat) (s : Store) (addr : Nat)
    (hdig : ∀ i, i < 20 → streamValue s (8 * addr + 5 * i) 5 < kMinAnalogActionID E) :
    DecodeBody E oob s addr = some (digitalLayoutAt s addr) ∧
      (digitalLayoutAt s addr).toList =
        (List.range 20).map (fun i => Action.digital (streamValue s (8 * addr + 5 * i) 5)) ∧
      (bodyCursor s addr).addr = addr + 1 ∧
      (∃ acts c, decodeActions E oob s 20 (bodyCursor s addr) = some (acts, c) ∧
        acts.length = 20 ∧ c.addr = addr + 13 ∧ c.unread = 4) ∧
      ∀ s1 : Store, (∀ j, j < 13 → EEPROMread s1 (addr + j) = EEPROMread s (addr + j)) →
        DecodeBody E oob s1 addr = DecodeBody E oob s addr := by
  have h := decodeActions_digital E oob s 20 (bodyCursor s addr) (bodyCursor_ok s addr)
    (by rw [bodyCursor_pos]; exact hdig)
  rw [bodyCursor_pos] at h
  refine ⟨DecodeBody_digital E oob s addr hdig, ?_, rfl, ⟨_, _, h, ?_, ?_, ?_⟩, ?_⟩
  · have hrange : List.range 20 =
        [0, 1, 2, 3, 4, 5, 6, 7, 8, 9, 10, 11, 12, 13, 14, 15, 16, 17, 18, 19] := by decide
    rw [hrange]
    simp only [List.map_cons, List.map_nil, digitalLayoutAt, Layout.toList]
  · simp
  · simp only [cursorAt]
    omega
  · simp only [cursorAt]
    omega
  · intro s1 hagree
    have hval : ∀ i, i < 20 →
        streamValue s1 (8 * addr + 5 * i) 5 = streamValue s (8 * addr + 5 * i) 5 := by
      intro i hi
      apply streamValue_congr
      intro k hk
      have e : (8 * addr + 5 * i + k) / 8 = addr + (5 * i + k) / 8 := by omega
      rw [e]
      exact hagree _ (by omega)
    have hdig1 : ∀ i, i < 20 →
        streamValue s1 (8 * addr + 5 * i) 5 < kMinAnalogActionID E := by
      intro i hi
      rw [hval i hi]
      exact hdig i hi
    rw [DecodeBody_digital E oob s addr hdig, DecodeBody_digital E oob s1 addr hdig1]
    unfold digitalLayoutAt
    rw [hval 0 (by omega), hval 1 (by omega), hval 2 (by omega), hval 3 (by omega), hval 4 (by omega), hval 5 (by omega), hval 6 (by omega), hval 7 (by omega), hval 8 (by omega), hval 9 (by omega), hval 10 (by omega), hval 11 (by omega), hval 12 (by omega), hval 13 (by omega), hval 14 (by omega), hval 15 (by omega), hval 16 (by omega), hval 17 (by omega), hval 18 (by omega), hval 19 (by omega)]

set_option maxRecDepth 100000 in
/-- Witness for C13: the body at address 20 of the store that holds the
digital layout with ids 1 to 20. -/
theorem C13_all_digital_body_witness :
    (∀ i, i < 20 →
        streamValue sharedByteStore (8 * 20 + 5 * i) 5 < kMinAnalogActionID exampleEnums) ∧
      DecodeBody exampleEnums oobZero sharedByteStore 20 =
        some (digitalLayoutAt sharedByteStore 20) ∧
      digitalLayoutAt sharedByteStore 20 = digitalLayout :=
  ⟨by decide, (C13_all_digital_body exampleEnums oobZero sharedByteStore 20 (by decide)).1,
    by decide⟩

/-- C14. The scan of `Decode` ends for every store, length and request: it
returns with `max_addr` units of fuel, and with any other amount of fuel that
covers the addresses below `max_addr` it returns the same. The headers it
examines are the first ones of the path from 18, each step of the path is at
least 14, every examined address is below `max_addr`, and the number of
headers examined is at most `⌈(max_addr - 18) / 14⌉` when `max_addr > 18` and
0 otherwise. -/
theorem C14_scan_terminates (E : ProfileEnums) (s : Store) (p q : Nat)
    (_hmax : E.Platform_MAX ≤ 8) :
    ∃ b seen, scan E s p q = some (b, seen) ∧
      (∀ fuel, maxAddr s ≤ 18 + fuel →
        scanLoop E s p q (maxAddr s) fuel 18 [] = some (b, seen)) ∧
      seen = (List.range seen.length).map (chainFrom E s 18) ∧
      (∀ j, chainFrom E s 18 j + 14 ≤ chainFrom E s 18 (j + 1)) ∧
      (∀ a ∈ seen, a < maxAddr s) ∧
      seen.length ≤ (if maxAddr s > 18 then (maxAddr s - 18 + 13) / 14 else 0) := by
  obtain ⟨n, hbefore, hstop⟩ :=
    scanLoop_chain E s p q (maxAddr s) (maxAddr s) (kMinAddr + 2) [] (by omega)
  have h18 : kMinAddr + 2 = 18 := rfl
  rw [h18, List.nil_append, List.nil_append] at hstop
  rw [h18] at hbefore
  have hstep : ∀ j, chainFrom E s 18 j + 14 ≤ chainFrom E s 18 (j + 1) := by
    intro j
    have hpos := headerLen_pos (DecodeHeader E s (chainFrom E s 18 j))
    rw [chainFrom_succ]
    omega
  have hfuel : ∀ b seen, scan E s p q = some (b, seen) → ∀ fuel, maxAddr s ≤ 18 + fuel →
      scanLoop E s p q (maxAddr s) fuel 18 [] = some (b, seen) := by
    intro b seen hscan fuel hf
    rw [← hscan]
    exact scanLoop_fuel E s p q (maxAddr s) fuel (maxAddr s) 18 [] hf (by omega)
  rcases hstop with ⟨hlt, _, hrun⟩ | ⟨hge, hrun⟩
  · have hscan : scan E s p q =
        some (chainFrom E s 18 n + headerLen (DecodeHeader E s (chainFrom E s 18 n)),
          (List.range (n + 1)).map (chainFrom E s 18)) := hrun
    have hn := chainFrom_ge E s n 18
    refine ⟨_, _, hscan, hfuel _ _ hscan, by simp, hstep, ?_, ?_⟩
    · intro a ha
      simp only [List.mem_map, List.mem_range] at ha
      obtain ⟨j, hj, rfl⟩ := ha
      by_cases hjn : j = n
      · rw [hjn]; exact hlt
      · exact (hbefore j (by omega)).1
    · simp only [List.length_map, List.length_range]
      split <;> omega
  · have hscan : scan E s p q =
        some (chainFrom E s 18 n, (List.range n).map (chainFrom E s 18)) := hrun
    refine ⟨_, _, hscan, hfuel _ _ hscan, by simp, hstep, ?_, ?_⟩
    · intro a ha
      simp only [List.mem_map, List.mem_range] at ha
      obtain ⟨j, hj, rfl⟩ := ha
      exact (hbefore j hj).1
    · simp only [List.length_map, List.length_range]
      cases n with
      | zero => split <;> omega
      | succ m =>
        have hm := (hbefore m (by omega)).1
        have hge1 := chainFrom_ge E s m 18
        split <;> omega

set_option maxRecDepth 100000 in
/-- Witness for C14: the two-record store, where `max_addr` is 47; the scan
for a request no header serves examines the two headers at 18 and 33, within
the bound of 3. -/
theorem C14_scan_terminates_witness :
    exampleEnums.Platform_MAX ≤ 8 ∧ maxAddr twoRecordStore = 47 ∧
      scan exampleEnums twoRecordStore 3 1 = some (48, [18, 33]) ∧
      ∃ b seen, scan exampleEnums twoRecordStore 3 1 = some (b, seen) ∧
        seen.length ≤ (if maxAddr twoRecordStore > 18 then
          (maxAddr twoRecordStore - 18 + 13) / 14 else 0) := by
  obtain ⟨b, seen, hscan, _, _, _, _, hlen⟩ :=
    C14_scan_terminates exampleEnums twoRecordStore 3 1 (by decide)
  exact ⟨by decide, by decide, by decide, b, seen, hscan, hlen⟩

/-- C15. Bit reader cursor invariant: from a cursor with `unread` in 1..8
and `curr_byte` the store byte at `addr - 1`, `FetchData(n)` returns with
`unread` again in 1..8, `curr_byte` again the store byte at the new
`addr - 1`, and the stream position `8 * (addr - 1) + (8 - unread)` advanced by
exactly `n`. The address moves on by one for every byte whose last bit is
consumed; a new byte is loaded exactly when `n` reaches the unread count of
the current byte, and when the run ends on the byte boundary the next byte is
loaded with `unread = 8`. This holds for every width and whatever lies past
the mask table. -/
theorem C15_cursor_invariant (oob : Nat → Nat) (s : Store) (n : Nat) (c : Cursor)
    (h1 : 1 ≤ c.unread) (h8 : c.unread ≤ 8) (ha : 1 ≤ c.addr)
    (hb : c.curr_byte = EEPROMread s (c.addr - 1)) :
    ∃ v c1, FetchData oob s n c = some (v, c1) ∧
      1 ≤ c1.unread ∧ c1.unread ≤ 8 ∧ 1 ≤ c1.addr ∧
      c1.curr_byte = EEPROMread s (c1.addr - 1) ∧
      8 * (c1.addr - 1) + (8 - c1.unread) = 8 * (c.addr - 1) + (8 - c.unread) + n ∧
      c1.addr = c.addr +
        ((8 * (c.addr - 1) + (8 - c.unread) + n) / 8 - (8 * (c.addr - 1) + (8 - c.unread)) / 8) ∧
      (c.addr < c1.addr ↔ c.unread ≤ n) ∧
      (n = c.unread →
        c1 = { addr := c.addr + 1, curr_byte := EEPROMread s c.addr, unread := 8 }) ∧
      (n < c.unread →
        c1 = { addr := c.addr, curr_byte := c.curr_byte, unread := c.unread - n }) := by
  obtain ⟨v, hv⟩ := FetchData_cursor oob s n c ⟨h1, h8, ha, hb⟩
  have hok := cursorAt_ok s (c.pos + n)
  refine ⟨v, cursorAt s (c.pos + n), hv, hok.1, hok.2.1, hok.2.2.1, hok.2.2.2, ?_, ?_, ?_, ?_, ?_⟩
  · simp only [cursorAt, Cursor.pos]
    omega
  · simp only [cursorAt, Cursor.pos]
    omega
  · simp only [cursorAt, Cursor.pos]
    omega
  · intro hn
    simp only [cursorAt, Cursor.pos]
    have e1 : (8 * c.addr - c.unread + n) / 8 = c.addr := by omega
    have e2 : (8 * c.addr - c.unread + n) % 8 = 0 := by omega
    rw [e1, e2]
  · intro hn
    simp only [cursorAt, Cursor.pos]
    have e1 : (8 * c.addr - c.unread + n) / 8 = c.addr - 1 := by omega
    have e2 : (8 * c.addr - c.unread + n) % 8 = 8 - (c.unread - n) := by omega
    rw [e1, e2, hb]
    congr 1 <;> omega

/-- Witness for C15: a 5-bit fetch from the cursor with five unread bits of
`0xAB` ends on the byte boundary and loads `0xCD` with eight unread bits. -/
theorem C15_cursor_invariant_witness :
    (1 ≤ (5 : Nat) ∧ (5 : Nat) ≤ 8 ∧ 1 ≤ (1 : Nat) ∧ 0xAB = EEPROMread fetchStore (1 - 1)) ∧
      ∃ v, FetchData oobZero fetchStore 5 ⟨1, 0xAB, 5⟩ = some (v, ⟨2, 0xCD, 8⟩) := by
  obtain ⟨v, c1, hf, _, _, _, _, _, _, _, hend, _⟩ :=
    C15_cursor_invariant oobZero fetchStore 5 ⟨1, 0xAB, 5⟩ (by decide) (by decide) (by decide)
      (by decide)
  have hc1 := hend rfl
  subst hc1
  exact ⟨by decide, v, hf⟩

/-- C16. For every width `n` in 1..8 and every cursor with `unread` in 1..8,
every index `remaining - 1` at which `FetchData` reads `kMasks` is below 8, so
the result does not depend on what lies past the table; and when `curr_byte`
is the store byte at `addr - 1` the call returns the next `n` stream bits, an
integer of at most `2 ^ n - 1`. For `n = 5` this is the action-id fetch at
every bit offset. -/
theorem C16_mask_index_in_table (oob : Nat → Nat) (s : Store) (n : Nat) (c : Cursor)
    (hn1 : 1 ≤ n) (hn8 : n ≤ 8) (h1 : 1 ≤ c.unread) (h8 : c.unread ≤ 8) :
    (∀ i ∈ maskIndices n c.unread, i ≤ 7) ∧
      maskIndices n c.unread ≠ [] ∧
      (∀ oob1 : Nat → Nat, FetchData oob1 s n c = FetchData oob s n c) ∧
      (1 ≤ c.addr → c.curr_byte = EEPROMread s (c.addr - 1) →
        FetchData oob s n c = some (streamValue s c.pos n, cursorAt s (c.pos + n)) ∧
          streamValue s c.pos n ≤ 2 ^ n - 1 ∧
          c.pos = 8 * (c.addr - 1) + (8 - c.unread)) := by
  have hidx : ∀ i ∈ maskIndices n c.unread, i ≤ 7 := by
    intro i hi
    have := maskIndexLoop_lt (n + 1) n c.unread i hi
    omega
  refine ⟨hidx, ?_, ?_, ?_⟩
  · unfold maskIndices
    by_cases hu : n ≤ c.unread
    · rw [maskIndexLoop_within n n c.unread (by omega) hu]
      simp
    · rw [maskIndexLoop_cross n n c.unread (by omega)]
      simp
  · intro oob1
    exact FetchDataLoop_congr_oob oob oob1 s (n + 1) n 0 c
      (fun i hi => kMasksAt_table oob oob1 i (by have := hidx i hi; omega))
  · intro ha hb
    have hlt := streamValue_lt s c.pos n
    refine ⟨FetchData_value oob s n c ⟨h1, h8, ha, hb⟩ hn8, by omega, ?_⟩
    simp only [Cursor.pos]
    omega

/-- Witness for C16: the 5-bit fetch from the cursor with three unread bits
of `0xAB`, which runs into the next byte `0xCD`; the masks read are
`kMasks[4]` and `kMasks[1]`. -/
theorem C16_mask_index_in_table_witness :
    (1 ≤ (5 : Nat) ∧ (5 : Nat) ≤ 8 ∧ 1 ≤ (3 : Nat) ∧ (3 : Nat) ≤ 8) ∧
      maskIndices 5 3 = [4, 1] ∧
      (∀ i ∈ maskIndices 5 3, i ≤ 7) ∧
      FetchData oobZero fetchStore 5 ⟨1, 0xAB, 3⟩ = some (15, ⟨2, 0xCD, 6⟩) :=
  have h := C16_mask_index_in_table oobZero fetchStore 5 ⟨1, 0xAB, 3⟩ (by decide) (by decide)
    (by decide) (by decide)
  ⟨by decide, by decide, h.1, by decide⟩

/-- C17. Platform value 0 is unreachable: for every bitmap byte the test
`bitmap & (1 << (8 - 0))` is zero, `DecodeHeader` never returns a config with
platform value 0, no header matches a request for platform 0, and
`Decode(0, q)` ends in `exit(1)` for every store and position: it never
returns a layout. -/
theorem C17_platform_zero_unreachable (E : ProfileEnums) (oob : Nat → Nat) (s : Store)
    (q : Nat) (_hmax : E.Platform_MAX ≤ 8) :
    (∀ bitmap, bitmap < 256 →
        bitmap &&& (1 <<< (8 - 0)) = 0 ∧ platformBit bitmap 0 = false) ∧
      (∀ addr c, c ∈ DecodeHeader E s addr → c.platform ≠ 0) ∧
      (∀ addr, matchesRequest (DecodeHeader E s addr) 0 q = false) ∧
      (∃ b seen, scan E s 0 q = some (b, seen) ∧ maxAddr s ≤ b) ∧
      Decode E oob s 0 q = some (Outcome.exited 1) ∧
      ∀ L, Decode E oob s 0 q ≠ some (Outcome.returned L) := by
  have hbit : ∀ bitmap, bitmap < 256 →
      bitmap &&& (1 <<< (8 - 0)) = 0 ∧ platformBit bitmap 0 = false := by
    intro bitmap hlt
    have htest : bitmap.testBit 8 = false := Nat.testBit_lt_two_pow hlt
    have hpb : platformBit bitmap 0 = false := by
      rw [platformBit_eq_testBit]
      exact htest
    refine ⟨?_, hpb⟩
    rw [Nat.shiftLeft_eq, Nat.one_mul, Nat.and_two_pow, Nat.sub_zero, htest]
    simp
  obtain ⟨b, seen, hrun, _, _, hstop⟩ :=
    scanLoop_inv E s 0 q (maxAddr s) (maxAddr s) (kMinAddr + 2) [] (by omega)
  rw [List.nil_append] at hrun
  have hscan : scan E s 0 q = some (b, seen) := hrun
  have hge : maxAddr s ≤ b := by
    rcases hstop with h | ⟨a1, _, _, hm, _⟩
    · exact h
    · rw [matchesRequest_zero] at hm
      cases hm
  have hdec : Decode E oob s 0 q = some (Outcome.exited 1) := by
    unfold Decode
    rw [hscan]
    simp only
    rw [if_pos hge]
  refine ⟨hbit, fun addr c hc => DecodeHeader_platform_ne_zero E s addr c hc,
    fun addr => matchesRequest_zero E s addr q, ⟨b, seen, hscan, hge⟩, hdec, ?_⟩
  intro L hL
  rw [hdec] at hL
  cases hL

/-- Witness for C17: the request for platform 0 at position 5 on the store
whose one record serves platforms 1 and 2. -/
theorem C17_platform_zero_unreachable_witness :
    exampleEnums.Platform_MAX ≤ 8 ∧
      Decode exampleEnums oobZero sharedByteStore 0 5 = some (Outcome.exited 1) :=
  ⟨by decide, (C17_platform_zero_unreachable exampleEnums oobZero sharedByteStore 5
    (by decide)).2.2.2.2.1⟩

end AnalogFightstick
